import Mathlib

/-! Shallow embedding of the redo-log write set in
`Project1/submission/RingSTM/tm/WriteSet.hpp` (namespace `stm`), in the
configuration the file selects: word logging (`WordLoggingWriteSetEntry`,
aliased to `WriteSetEntry`), no `STM_PROTECT_STACK`, no
`STM_ABORT_ON_THROW`.

Machine integers (`size_t`, `uint64_t`, pointers cast to
`unsigned long long`) are modelled as `Nat` with an explicit `% 2 ^ 64`
or `% 2 ^ 32` exactly where the C++ arithmetic wraps.  Raw memory is a
map `Nat → Nat` from opaque fixed-width address handles to word values,
as the specification's design notes prescribe.  The probe loops of
`find` / `insert` / `remove` are unbounded `while` loops in the source;
they are embedded with an explicit fuel of `ilength` steps, and the
`ProbeResult.stuck` outcome marks the case -- unreachable while the
load-factor invariant supplies a non-live slot -- in which the C++ loop
would cycle through a fully live table forever. -/

/-- One buffered write: `WordLoggingWriteSetEntry` of WriteSet.hpp (the
word-logging entry), an address/value pair. -/
structure WriteSetEntry where
  addr : Nat
  val : Nat
deriving Repr, DecidableEq, Inhabited

/-- The hash-table slot type `index_t` of `WriteSet`: a version tag, an
address, and the position of the corresponding entry in the log array.
The `Inhabited` default is the zero-initialising `index_t()` constructor. -/
structure IndexSlot where
  version : Nat
  address : Nat
  index : Nat
deriving Repr, DecidableEq, Inhabited

/-- `WriteSet::hash`: the 64-bit product of the key with the CLRS constant
2654435769 is truncated to its low 32 bits (`r & 0xFFFFFFFF`) and then
shifted right by `shift`. -/
def hashAt (shift key : Nat) : Nat :=
  key * 2654435769 % 2 ^ 64 % 2 ^ 32 / 2 ^ shift

/-- A raw-memory store after `*(uint64_t*)addr = val`. -/
def memWrite (m : Nat → Nat) (a v : Nat) : Nat → Nat :=
  fun x => if x = a then v else m x

/-- `WordLoggingWriteSetEntry::writeback`: perform the logged write. -/
def WriteSetEntry.writeback (e : WriteSetEntry) (m : Nat → Nat) : Nat → Nat :=
  memWrite m e.addr e.val

/-- `WordLoggingWriteSetEntry::validate`: the word currently stored at the
buffered address equals the buffered value. -/
def WriteSetEntry.validate (e : WriteSetEntry) (m : Nat → Nat) : Bool :=
  m e.addr == e.val

/-- Outcome of the linear-probe loop shared by find / insert / remove: the
loop stops at a live slot holding the probed address (`found`), stops at a
non-live slot (`free`), or exhausts its fuel because every inspected slot is
live with a different address (`stuck`, where the C++ loop would spin). -/
inductive ProbeResult where
  | found : Nat → ProbeResult
  | free : Nat → ProbeResult
  | stuck : ProbeResult
deriving Repr, DecidableEq

/-- The probe loop `while (index[h].version == version)` of WriteSet.hpp,
with linear probing `h = (h + 1) % ilength` on an address mismatch.  It is
parameterised by the raw table so that the rebuild loop can reuse it. -/
def probeIdx (idx : Nat → IndexSlot) (ver ilen a : Nat) : Nat → Nat → ProbeResult
  | 0, _ => ProbeResult.stuck
  | fuel + 1, h =>
    if (idx h).version = ver then
      if (idx h).address = a then ProbeResult.found h
      else probeIdx idx ver ilen a fuel ((h + 1) % ilen)
    else ProbeResult.free h

/-- Pointwise table update, `index[h] = s`. -/
def updSlot (idx : Nat → IndexSlot) (h : Nat) (s : IndexSlot) : Nat → IndexSlot :=
  fun x => if x = h then s else idx x

/-- The `WriteSet` state: the hash index (`index`, `shift`, `ilength`,
`version`) over the log array (`list`, `capacity`, `lsize`).  The C++ array
`index` of length `ilength` is modelled as a function; positions outside
`[0, ilength)` are never consulted by the operations. -/
structure WriteSet where
  index : Nat → IndexSlot
  shift : Nat
  ilength : Nat
  version : Nat
  list : List WriteSetEntry
  capacity : Nat
  lsize : Nat

/-- `WriteSet::hash` applied to this table's shift. -/
def WriteSet.hash (ws : WriteSet) (key : Nat) : Nat :=
  hashAt ws.shift key

/-- The probe loop of this table, started at `hash(addr)` with fuel
`ilength`. -/
def WriteSet.probe (ws : WriteSet) (a : Nat) : ProbeResult :=
  probeIdx ws.index ws.version ws.ilength a ws.ilength (ws.hash a)

/-- `WriteSet::find`: probe for the address; on a live match report the
value stored in the log entry the slot points at. -/
def WriteSet.find (ws : WriteSet) (a : Nat) : Option Nat :=
  match ws.probe a with
  | ProbeResult.found h => some ((ws.list.getD (ws.index h).index default).val)
  | _ => none

/-- Writing `list[i] = e` into the preallocated log array: positions below
the physical length are overwritten in place, the position one past the end
(the only other case `insert` can reach, since `lsize ≤ length`) appends. -/
def listWrite (l : List WriteSetEntry) (i : Nat) (e : WriteSetEntry) :
    List WriteSetEntry :=
  if i < l.length then l.set i e else l ++ [e]

/-- Modelled from the spec: `WriteSet::resize` is declared in WriteSet.hpp
but its body is not among the repository sources.  Spec section 4.2: the
entry list "grows by doubling when full; reallocation preserves existing
order and contents exactly".  With an unbounded Lean list the contents need
no copying, so only the capacity doubles. -/
def WriteSet.resize (ws : WriteSet) : WriteSet :=
  { ws with capacity := 2 * ws.capacity }

/-- Entry `i` of the log currently has a live index binding: some slot of
the (pre-rebuild) table is at the current version and points at `i`. -/
def WriteSet.entryLive (ws : WriteSet) (i : Nat) : Bool :=
  (List.range ws.ilength).any fun h =>
    (ws.index h).version == ws.version && (ws.index h).index == i

/-- One reinsertion of the rebuild loop: probe the (fresh, version-1) table
of `n2` slots with the recomputed hash of entry `i` of the log `l` and claim
the slot the probe stops at. -/
def reinsertStep (l : List WriteSetEntry) (n2 sh2 : Nat) (ix : Nat → IndexSlot)
    (i : Nat) : Nat → IndexSlot :=
  match probeIdx ix 1 n2 (l.getD i default).addr n2 (hashAt sh2 (l.getD i default).addr) with
  | ProbeResult.found h => updSlot ix h ⟨1, (l.getD i default).addr, i⟩
  | ProbeResult.free h => updSlot ix h ⟨1, (l.getD i default).addr, i⟩
  | ProbeResult.stuck => ix

/-- Modelled from the spec: `WriteSet::rebuild` is declared in WriteSet.hpp
but its body is not among the repository sources.  Spec section 4.1:
"double capacity, allocate a fresh table, reset the version baseline to 1,
and reinsert every currently-live entry by recomputing its hash against the
new capacity/shift."  Doubling the power-of-two capacity means decrementing
the hash shift; reinsertion probes the fresh table for a claimable slot,
walking the live entries in insertion order. -/
def WriteSet.rebuild (ws : WriteSet) : WriteSet :=
  let ilen := 2 * ws.ilength
  let sh := ws.shift - 1
  { ws with
    index :=
      ((List.range ws.lsize).filter fun i => ws.entryLive i).foldl
        (reinsertStep ws.list ilen sh) fun _ => default
    ilength := ilen
    shift := sh
    version := 1 }

/-- `WriteSet::insert`: probe; on a live match coalesce by updating the
pointed-at entry's value (`update` of the word-logging entry) and report
`true`; on a free slot append the entry to the log, claim the slot, then
run the `lsize == capacity` resize check and the `lsize * 3 >= ilength`
rebuild check, reporting `false`.  The fuel-exhausted probe outcome (the
C++ loop spinning on a fully live table, ruled out by the load-factor
invariant) is mapped to a no-op returning `false`. -/
def WriteSet.insert (ws : WriteSet) (a v : Nat) : Bool × WriteSet :=
  match ws.probe a with
  | ProbeResult.found h =>
    let i := (ws.index h).index
    let e := ws.list.getD i default
    (true, { ws with list := ws.list.set i { e with val := v } })
  | ProbeResult.free h =>
    let ws1 : WriteSet :=
      { ws with
        list := listWrite ws.list ws.lsize ⟨a, v⟩
        index := updSlot ws.index h ⟨ws.version, a, ws.lsize⟩
        lsize := ws.lsize + 1 }
    let ws2 := if ws1.lsize = ws1.capacity then ws1.resize else ws1
    let ws3 := if ws2.lsize * 3 ≥ ws2.ilength then ws2.rebuild else ws2
    (false, ws3)
  | ProbeResult.stuck => (false, ws)

/-- `WriteSet::remove`: probe; on a live match decrement that slot's version
tag (a `size_t`, so with 64-bit wraparound), after which the loop condition
fails and the loop exits; on a non-live slot exit without changes. -/
def WriteSet.remove (ws : WriteSet) (a : Nat) : WriteSet :=
  match ws.probe a with
  | ProbeResult.found h =>
    let s := ws.index h
    { ws with
      index := updSlot ws.index h { s with version := (s.version + (2 ^ 64 - 1)) % 2 ^ 64 } }
  | _ => ws

/-- `WriteSet::size`: the count of log entries in use. -/
def WriteSet.size (ws : WriteSet) : Nat :=
  ws.lsize

/-- Modelled from the spec: `WriteSet::reset_internal` is declared in
WriteSet.hpp but its body is not among the repository sources.  Spec
sections 3 and 7: on version-counter overflow "a full physical clear is
performed transparently"; the table is physically zeroed and the version
baseline becomes 1 again (the value a fresh table starts from, so that the
zeroed slots are non-live). -/
def WriteSet.reset_internal (ws : WriteSet) : WriteSet :=
  { ws with index := (fun _ => default), version := 1 }

/-- `WriteSet::reset`: zero the logical size and advance the version
counter (a `size_t`, hence modulo `2 ^ 64`); only when the counter wraps to
zero fall back to the physical clear. -/
def WriteSet.reset (ws : WriteSet) : WriteSet :=
  let ws1 : WriteSet := { ws with lsize := 0, version := (ws.version + 1) % 2 ^ 64 }
  if ws1.version ≠ 0 then ws1 else ws1.reset_internal

/-- `WriteSet::writeback` (the configuration without a protected stack
region): iterate the log from `begin()` to `end() = list + lsize` in
insertion order and perform every logged write. -/
def WriteSet.writeback (ws : WriteSet) (m : Nat → Nat) : Nat → Nat :=
  (ws.list.take ws.lsize).foldl (fun mm e => e.writeback mm) m

/-- `WriteSet::validate`: iterate the log from `begin()` to `end()` and
check every entry against memory; false as soon as one mismatches. -/
def WriteSet.validate (ws : WriteSet) (m : Nat → Nat) : Bool :=
  (ws.list.take ws.lsize).all fun e => e.validate m

/-- Slot `h` is live: its version tag equals the table's current version. -/
def liveIdx (idx : Nat → IndexSlot) (ver h : Nat) : Prop :=
  (idx h).version = ver

instance (idx : Nat → IndexSlot) (ver h : Nat) : Decidable (liveIdx idx ver h) := by
  unfold liveIdx
  infer_instance

/-- Slot `h` of this write set is live. -/
def WriteSet.live (ws : WriteSet) (h : Nat) : Prop :=
  liveIdx ws.index ws.version h

instance (ws : WriteSet) (h : Nat) : Decidable (ws.live h) := by
  unfold WriteSet.live
  infer_instance

/-- Address `a` has a live binding in the raw table. -/
def boundIdx (idx : Nat → IndexSlot) (ver n a : Nat) : Prop :=
  ∃ h, h < n ∧ liveIdx idx ver h ∧ (idx h).address = a

instance (idx : Nat → IndexSlot) (ver n a : Nat) : Decidable (boundIdx idx ver n a) :=
  decidable_of_iff
    ((List.range n).any fun h => decide (liveIdx idx ver h) && ((idx h).address == a))
    (by simp [boundIdx, List.any_eq_true, and_assoc])

/-- Address `a` has a live binding in this write set. -/
def WriteSet.bound (ws : WriteSet) (a : Nat) : Prop :=
  boundIdx ws.index ws.version ws.ilength a

instance (ws : WriteSet) (a : Nat) : Decidable (ws.bound a) := by
  unfold WriteSet.bound
  infer_instance

/-- Every live slot points into the used log prefix, at an entry carrying
the slot's address (data-model invariant of spec section 3). -/
def pointsIdx (idx : Nat → IndexSlot) (ver n : Nat) (l : List WriteSetEntry)
    (ls : Nat) : Prop :=
  ∀ h, h < n → liveIdx idx ver h →
    (idx h).index < ls ∧ (l.getD (idx h).index default).addr = (idx h).address

instance (idx : Nat → IndexSlot) (ver n : Nat) (l : List WriteSetEntry) (ls : Nat) :
    Decidable (pointsIdx idx ver n l ls) := by
  unfold pointsIdx
  infer_instance

/-- At most one live slot holds any given address (coalescing invariant of
spec section 3). -/
def uniqIdx (idx : Nat → IndexSlot) (ver n : Nat) : Prop :=
  ∀ h1, h1 < n → ∀ h2, h2 < n → liveIdx idx ver h1 → liveIdx idx ver h2 →
    (idx h1).address = (idx h2).address → h1 = h2

instance (idx : Nat → IndexSlot) (ver n : Nat) : Decidable (uniqIdx idx ver n) := by
  unfold uniqIdx
  infer_instance

/-- Linear-probing reachability: every live slot is connected to the hash
position of its address by a cyclic run of live slots, so a probe for that
address cannot stop early at a free slot (spec section 4.1; `remove` is the
one operation that may break this). -/
def chainIdx (idx : Nat → IndexSlot) (ver n sh : Nat) : Prop :=
  ∀ h, h < n → liveIdx idx ver h →
    ∀ j, j < (h + n - hashAt sh (idx h).address) % n →
      liveIdx idx ver ((hashAt sh (idx h).address + j) % n)

instance (idx : Nat → IndexSlot) (ver n sh : Nat) : Decidable (chainIdx idx ver n sh) := by
  unfold chainIdx
  infer_instance

/-- Structural well-formedness of a `WriteSet` (everything except probing
reachability): the table is at least 4 slots, hash values land inside it,
the used log prefix is physically present, the load factor is below one
third, versions are 64-bit with every slot at or below the current version,
and live slots point correctly and uniquely. -/
def WriteSet.wfCore (ws : WriteSet) : Prop :=
  4 ≤ ws.ilength ∧
  2 ^ (32 - ws.shift) ≤ ws.ilength ∧
  ws.shift ≤ 32 ∧
  ws.lsize ≤ ws.list.length ∧
  ws.lsize * 3 < ws.ilength ∧
  1 ≤ ws.version ∧
  ws.version < 2 ^ 64 ∧
  (∀ h, h < ws.ilength → (ws.index h).version ≤ ws.version) ∧
  pointsIdx ws.index ws.version ws.ilength ws.list ws.lsize ∧
  uniqIdx ws.index ws.version ws.ilength

instance (ws : WriteSet) : Decidable ws.wfCore := by
  unfold WriteSet.wfCore
  infer_instance

/-- Probing reachability for this write set. -/
def WriteSet.chainOK (ws : WriteSet) : Prop :=
  chainIdx ws.index ws.version ws.ilength ws.shift

instance (ws : WriteSet) : Decidable ws.chainOK := by
  unfold WriteSet.chainOK
  infer_instance

/-- Full well-formedness. -/
def WriteSet.wf (ws : WriteSet) : Prop :=
  ws.wfCore ∧ ws.chainOK

instance (ws : WriteSet) : Decidable ws.wf := by
  unfold WriteSet.wf
  infer_instance

/-- Folding a list of inserts into the write set, for stating properties of
operation sequences. -/
def insertAll (ws : WriteSet) (ops : List (Nat × Nat)) : WriteSet :=
  ops.foldl (fun s p => (s.insert p.1 p.2).2) ws

/-- Modelled from the spec: the `WriteSet(initial_capacity)` constructor is
declared in WriteSet.hpp but its body is not among the repository sources.
Spec section 6 derives the internal table sizes from an initial capacity;
this concrete state is the example of spec section 8: entry capacity 4,
derived index capacity 16 (shift 28), version baseline 1, empty log. -/
def ws0 : WriteSet :=
  { index := fun _ => default
    shift := 28
    ilength := 16
    version := 1
    list := []
    capacity := 4
    lsize := 0 }

/-- The probe loop stops at slot `h`: `h` is non-live (the `free` exit) or
holds the probed address (the `found` exit). -/
def stopsAt (idx : Nat → IndexSlot) (ver a h : Nat) : Prop :=
  ¬ liveIdx idx ver h ∨ (idx h).address = a

instance (idx : Nat → IndexSlot) (ver a h : Nat) : Decidable (stopsAt idx ver a h) := by
  unfold stopsAt
  infer_instance

/-- The probe outcome at a stopping slot. -/
def mkRes (idx : Nat → IndexSlot) (ver h : Nat) : ProbeResult :=
  if (idx h).version = ver then ProbeResult.found h else ProbeResult.free h

/-- The set of live slots of a table of length `n`. -/
def liveFinset (idx : Nat → IndexSlot) (ver n : Nat) : Finset Nat :=
  (Finset.range n).filter fun h => liveIdx idx ver h

/-- Everything a fresh (coalescing-miss) `insert a v` guarantees about the
resulting state `t`: the log grew by exactly the new entry, the new binding
is findable, the set of bound addresses gained exactly `a`, structural
well-formedness and the load-factor bound hold again, probing reachability
is preserved, and the index capacity either stayed or doubled (rebuild). -/
def FreshPost (ws : WriteSet) (a v : Nat) (t : WriteSet) : Prop :=
  t.lsize = ws.lsize + 1 ∧
  t.list.take t.lsize = ws.list.take ws.lsize ++ [⟨a, v⟩] ∧
  t.find a = some v ∧
  (∀ b, t.bound b ↔ b = a ∨ ws.bound b) ∧
  t.wfCore ∧
  (ws.chainOK → t.chainOK) ∧
  (t.ilength = ws.ilength ∨ t.ilength = 2 * ws.ilength)

/-- Everything a coalescing `insert a v` (write-after-write hit) guarantees
about the resulting state `t`: only the hit entry's value changed. -/
def FoundPost (ws : WriteSet) (a v : Nat) (t : WriteSet) : Prop :=
  t.lsize = ws.lsize ∧
  t.list.length = ws.list.length ∧
  t.index = ws.index ∧
  t.version = ws.version ∧
  t.ilength = ws.ilength ∧
  t.shift = ws.shift ∧
  t.find a = some v ∧
  (∀ b, t.bound b ↔ ws.bound b) ∧
  t.wf

/-! Cyclic-index arithmetic for the probe sequence. -/

theorem cyc_step (n s j : Nat) (_hs : s < n) :
    ((s + 1) % n + j) % n = (s + (j + 1)) % n := by
  have h1 : s + 1 + j = s + (j + 1) := by omega
  calc ((s + 1) % n + j) % n = (s + 1 + j) % n := Nat.mod_add_mod (s + 1) n j
    _ = (s + (j + 1)) % n := by rw [h1]

theorem cyc_hit (n s f : Nat) (hs : s < n) (hf : f < n) :
    (s + (f + n - s) % n) % n = f := by
  have h1 : s + (f + n - s) = f + n := by omega
  calc (s + (f + n - s) % n) % n = (s + (f + n - s)) % n := Nat.add_mod_mod s (f + n - s) n
    _ = (f + n) % n := by rw [h1]
    _ = f % n := Nat.add_mod_right f n
    _ = f := Nat.mod_eq_of_lt hf

theorem cyc_inj (n s j1 j2 : Nat) (h1 : j1 < n) (h2 : j2 < n)
    (he : (s + j1) % n = (s + j2) % n) : j1 = j2 := by
  have hm : Nat.ModEq n (s + j1) (s + j2) := he
  have hm2 : Nat.ModEq n j1 j2 := Nat.ModEq.add_left_cancel' s hm
  calc j1 = j1 % n := (Nat.mod_eq_of_lt h1).symm
    _ = j2 % n := hm2
    _ = j2 := Nat.mod_eq_of_lt h2

/-! Characterisation of the probe loop: with enough fuel it stops at the
first stopping slot along the cyclic probe sequence. -/

theorem probeIdx_min (idx : Nat → IndexSlot) (ver n a : Nat) :
    ∀ fuel s, s < n →
      (∃ j, j < fuel ∧ stopsAt idx ver a ((s + j) % n)) →
      ∃ j, j < fuel ∧ stopsAt idx ver a ((s + j) % n) ∧
        (∀ k, k < j → ¬ stopsAt idx ver a ((s + k) % n)) ∧
        probeIdx idx ver n a fuel s = mkRes idx ver ((s + j) % n) := by
  intro fuel
  induction fuel with
  | zero =>
    intro s _ hex
    obtain ⟨j, hj, _⟩ := hex
    exact absurd hj (Nat.not_lt_zero j)
  | succ fuel ih =>
    intro s hs hex
    by_cases hstop : stopsAt idx ver a s
    · refine ⟨0, Nat.succ_pos fuel, ?_, ?_, ?_⟩
      · rw [Nat.add_zero, Nat.mod_eq_of_lt hs]
        exact hstop
      · intro k hk
        exact absurd hk (Nat.not_lt_zero k)
      · have hrw : (s + 0) % n = s := by
          rw [Nat.add_zero]
          exact Nat.mod_eq_of_lt hs
        rw [hrw]
        by_cases hv : (idx s).version = ver
        · have haddr : (idx s).address = a := by
            rcases hstop with h | h
            · exact absurd hv h
            · exact h
          simp [probeIdx, mkRes, hv, haddr]
        · simp [probeIdx, mkRes, hv]
    · have hv : (idx s).version = ver := by
        by_contra hv
        exact hstop (Or.inl hv)
      have haddr : ¬ (idx s).address = a := fun hh => hstop (Or.inr hh)
      have hn : 0 < n := Nat.lt_of_le_of_lt (Nat.zero_le s) hs
      obtain ⟨j, hj, hjs⟩ := hex
      have hj0 : j ≠ 0 := by
        rintro rfl
        rw [Nat.add_zero, Nat.mod_eq_of_lt hs] at hjs
        exact hstop hjs
      obtain ⟨j1, rfl⟩ : ∃ j1, j = j1 + 1 := ⟨j - 1, by omega⟩
      have hs1 : (s + 1) % n < n := Nat.mod_lt (s + 1) hn
      have hex1 : ∃ k, k < fuel ∧ stopsAt idx ver a (((s + 1) % n + k) % n) := by
        refine ⟨j1, by omega, ?_⟩
        rw [cyc_step n s j1 hs]
        exact hjs
      obtain ⟨k, hk, hks, hkmin, hkeq⟩ := ih ((s + 1) % n) hs1 hex1
      refine ⟨k + 1, by omega, ?_, ?_, ?_⟩
      · rw [← cyc_step n s k hs]
        exact hks
      · intro m hm
        cases m with
        | zero =>
          rw [Nat.add_zero, Nat.mod_eq_of_lt hs]
          exact hstop
        | succ m1 =>
          intro hmm
          apply hkmin m1 (by omega)
          rw [cyc_step n s m1 hs]
          exact hmm
      · have hstep : probeIdx idx ver n a (fuel + 1) s = probeIdx idx ver n a fuel ((s + 1) % n) := by
          simp [probeIdx, hv, haddr]
        rw [hstep, hkeq, cyc_step n s k hs]

/-! Probe corollaries: a probe started at the hash either finds the live
slot the chain leads to, or stops at the first free slot. -/

theorem hashAt_lt (sh key n : Nat) (h32 : sh ≤ 32) (hle : 2 ^ (32 - sh) ≤ n) :
    hashAt sh key < n := by
  have hx : key * 2654435769 % 2 ^ 64 % 2 ^ 32 < 2 ^ 32 :=
    Nat.mod_lt _ (by norm_num)
  have hpow : 2 ^ (32 - sh) * 2 ^ sh = 2 ^ 32 := by
    rw [← pow_add]
    congr 1
    omega
  have hdiv : key * 2654435769 % 2 ^ 64 % 2 ^ 32 / 2 ^ sh < 2 ^ (32 - sh) := by
    rw [Nat.div_lt_iff_lt_mul (Nat.pos_pow_of_pos sh (by norm_num))]
    rw [hpow]
    exact hx
  exact Nat.lt_of_lt_of_le hdiv hle

theorem probeIdx_found (idx : Nat → IndexSlot) (ver n a s ha : Nat)
    (hs : s < n) (hha : ha < n)
    (hlive : liveIdx idx ver ha) (haddr : (idx ha).address = a)
    (hpath : ∀ j, j < (ha + n - s) % n →
      liveIdx idx ver ((s + j) % n) ∧ (idx ((s + j) % n)).address ≠ a) :
    probeIdx idx ver n a n s = ProbeResult.found ha := by
  have hn : 0 < n := Nat.lt_of_le_of_lt (Nat.zero_le s) hs
  set d := (ha + n - s) % n with hd
  have hdlt : d < n := Nat.mod_lt _ hn
  have hhit : (s + d) % n = ha := cyc_hit n s ha hs hha
  have hstopd : stopsAt idx ver a ((s + d) % n) := by
    rw [hhit]
    exact Or.inr haddr
  obtain ⟨j, hj, hjs, hjmin, hjeq⟩ :=
    probeIdx_min idx ver n a n s hs ⟨d, hdlt, hstopd⟩
  have hjd : j = d := by
    rcases Nat.lt_trichotomy j d with h | h | h
    · obtain ⟨hl, hna⟩ := hpath j h
      rcases hjs with hx | hx
      · exact absurd hl hx
      · exact absurd hx hna
    · exact h
    · exact absurd hstopd (hjmin d h)
  rw [hjd, hhit] at hjeq
  have hv : (idx ha).version = ver := hlive
  rw [hjeq, mkRes, if_pos hv]

theorem probeIdx_free (idx : Nat → IndexSlot) (ver n a s : Nat)
    (hs : s < n)
    (hfree : ∃ f, f < n ∧ ¬ liveIdx idx ver f)
    (hunb : ∀ h, h < n → liveIdx idx ver h → (idx h).address ≠ a) :
    ∃ d, d < n ∧ probeIdx idx ver n a n s = ProbeResult.free ((s + d) % n) ∧
      ¬ liveIdx idx ver ((s + d) % n) ∧
      ∀ j, j < d → liveIdx idx ver ((s + j) % n) ∧ (idx ((s + j) % n)).address ≠ a := by
  have hn : 0 < n := Nat.lt_of_le_of_lt (Nat.zero_le s) hs
  obtain ⟨f, hf, hfl⟩ := hfree
  have hstopf : stopsAt idx ver a ((s + (f + n - s) % n) % n) := by
    rw [cyc_hit n s f hs hf]
    exact Or.inl hfl
  obtain ⟨j, hj, hjs, hjmin, hjeq⟩ :=
    probeIdx_min idx ver n a n s hs ⟨(f + n - s) % n, Nat.mod_lt _ hn, hstopf⟩
  have hjlt : (s + j) % n < n := Nat.mod_lt _ hn
  have hnl : ¬ liveIdx idx ver ((s + j) % n) := by
    rcases hjs with hx | hx
    · exact hx
    · intro hl
      exact hunb ((s + j) % n) hjlt hl hx
  refine ⟨j, hj, ?_, hnl, ?_⟩
  · have hv : ¬ (idx ((s + j) % n)).version = ver := hnl
    rw [hjeq, mkRes, if_neg hv]
  · intro k hk
    have hns : ¬ stopsAt idx ver a ((s + k) % n) := hjmin k hk
    constructor
    · by_contra hkl
      exact hns (Or.inl hkl)
    · intro hka
      exact hns (Or.inr hka)

/-! Counting live slots: at most one live slot per used log position, so a
table whose load factor is below one third always has a free slot. -/

theorem liveFinset_card_le (idx : Nat → IndexSlot) (ver n : Nat)
    (l : List WriteSetEntry) (ls : Nat)
    (hp : pointsIdx idx ver n l ls) (hu : uniqIdx idx ver n) :
    (liveFinset idx ver n).card ≤ ls := by
  have hmem : ∀ h, h ∈ liveFinset idx ver n ↔ h < n ∧ liveIdx idx ver h := by
    intro h
    unfold liveFinset
    rw [Finset.mem_filter, Finset.mem_range]
  have hmaps : ∀ h ∈ liveFinset idx ver n, (idx h).index ∈ Finset.range ls := by
    intro h hh
    obtain ⟨h1, h2⟩ := (hmem h).mp hh
    exact Finset.mem_range.mpr (hp h h1 h2).1
  have hinj : Set.InjOn (fun h => (idx h).index) (liveFinset idx ver n) := by
    intro h1 hh1 h2 hh2 he
    obtain ⟨hlt1, hl1⟩ := (hmem h1).mp (Finset.mem_coe.mp hh1)
    obtain ⟨hlt2, hl2⟩ := (hmem h2).mp (Finset.mem_coe.mp hh2)
    have ha1 := (hp h1 hlt1 hl1).2
    have ha2 := (hp h2 hlt2 hl2).2
    apply hu h1 hlt1 h2 hlt2 hl1 hl2
    rw [← ha1, ← ha2]
    exact congrArg (fun i => (l.getD i default).addr) he
  calc (liveFinset idx ver n).card ≤ (Finset.range ls).card :=
        Finset.card_le_card_of_injOn (fun h => (idx h).index) hmaps hinj
    _ = ls := Finset.card_range ls

theorem exists_free_of_card_lt (idx : Nat → IndexSlot) (ver n : Nat)
    (h : (liveFinset idx ver n).card < n) :
    ∃ f, f < n ∧ ¬ liveIdx idx ver f := by
  by_contra hc
  push_neg at hc
  have hall : ∀ x ∈ Finset.range n, liveIdx idx ver x := by
    intro x hx
    exact hc x (Finset.mem_range.mp hx)
  have heq : liveFinset idx ver n = Finset.range n := by
    unfold liveFinset
    exact Finset.filter_true_of_mem hall
  rw [heq, Finset.card_range] at h
  exact lt_irrefl n h

theorem exists_free_of_wfCore (ws : WriteSet) (hc : ws.wfCore) :
    ∃ f, f < ws.ilength ∧ ¬ ws.live f := by
  obtain ⟨_, _, _, _, h5, _, _, _, hp, hu⟩ := hc
  have hcard : (liveFinset ws.index ws.version ws.ilength).card ≤ ws.lsize :=
    liveFinset_card_le ws.index ws.version ws.ilength ws.list ws.lsize hp hu
  have : (liveFinset ws.index ws.version ws.ilength).card < ws.ilength := by omega
  exact exists_free_of_card_lt ws.index ws.version ws.ilength this

/-! Table and log update helpers. -/

theorem updSlot_self (idx : Nat → IndexSlot) (h : Nat) (s : IndexSlot) :
    updSlot idx h s h = s := by
  simp [updSlot]

theorem updSlot_ne (idx : Nat → IndexSlot) (h : Nat) (s : IndexSlot) (x : Nat)
    (hx : x ≠ h) : updSlot idx h s x = idx x := by
  simp [updSlot, hx]

theorem listWrite_getD_lt (l : List WriteSetEntry) (i : Nat) (e : WriteSetEntry)
    (j : Nat) (d : WriteSetEntry) (hj : j < i) (hi : i ≤ l.length) :
    (listWrite l i e).getD j d = l.getD j d := by
  unfold listWrite
  split
  · rw [List.getD_eq_getD_get?, List.get?_set_ne e l (by omega), ← List.getD_eq_getD_get?]
  · rw [List.getD_eq_getD_get?, List.get?_append (by omega), ← List.getD_eq_getD_get?]

theorem listWrite_getD_self (l : List WriteSetEntry) (i : Nat) (e : WriteSetEntry)
    (d : WriteSetEntry) (hi : i ≤ l.length) :
    (listWrite l i e).getD i d = e := by
  unfold listWrite
  split
  · rename_i hlt
    rw [List.getD_eq_getD_get?, List.get?_set_eq_of_lt e hlt]
    rfl
  · rename_i hge
    have hieq : i = l.length := by omega
    subst hieq
    rw [List.getD_eq_getD_get?, List.get?_append_right (Nat.le_refl _)]
    simp

theorem listWrite_succ_le_length (l : List WriteSetEntry) (i : Nat)
    (e : WriteSetEntry) (hi : i ≤ l.length) :
    i + 1 ≤ (listWrite l i e).length := by
  unfold listWrite
  split
  · rw [List.length_set]
    omega
  · rw [List.length_append, List.length_singleton]
    omega

theorem take_listWrite (l : List WriteSetEntry) (i : Nat) (e : WriteSetEntry)
    (hi : i ≤ l.length) :
    (listWrite l i e).take (i + 1) = l.take i ++ [e] := by
  unfold listWrite
  split
  · rename_i hlt
    rw [List.set_eq_take_cons_drop e hlt]
    rw [List.take_append_eq_append_take]
    have h1 : (List.take i l).length = i := by
      rw [List.length_take]
      omega
    rw [h1, List.take_take]
    have h2 : min (i + 1) i = i := by omega
    have h3 : i + 1 - i = 1 := by omega
    rw [h2, h3]
    rfl
  · rename_i hge
    have hieq : i = l.length := by omega
    subst hieq
    have h1 : (l ++ [e]).length ≤ l.length + 1 := by
      rw [List.length_append, List.length_singleton]
    rw [List.take_of_length_le h1, List.take_length]

/-! Effects of claiming a free slot: the shared step of a fresh insert and
of one reinsertion during a rebuild. -/

theorem live_updSlot_iff (idx : Nat → IndexSlot) (ver hstar a p h : Nat) :
    liveIdx (updSlot idx hstar ⟨ver, a, p⟩) ver h ↔ h = hstar ∨ liveIdx idx ver h := by
  unfold liveIdx updSlot
  by_cases hx : h = hstar
  · simp [hx]
  · simp [hx]

theorem probeIdx_after_claim (idx : Nat → IndexSlot) (ver n sh a p d : Nat)
    (hs : hashAt sh a < n) (hd : d < n)
    (hpath : ∀ j, j < d → liveIdx idx ver ((hashAt sh a + j) % n) ∧
      (idx ((hashAt sh a + j) % n)).address ≠ a) :
    probeIdx (updSlot idx ((hashAt sh a + d) % n) ⟨ver, a, p⟩) ver n a n (hashAt sh a) =
      ProbeResult.found ((hashAt sh a + d) % n) := by
  have hn : 0 < n := Nat.lt_of_le_of_lt (Nat.zero_le _) hs
  have hhs : (hashAt sh a + d) % n < n := Nat.mod_lt _ hn
  apply probeIdx_found _ ver n a (hashAt sh a) _ hs hhs
  · exact (live_updSlot_iff idx ver _ a p _).mpr (Or.inl rfl)
  · rw [updSlot_self]
  · have hdd : ((hashAt sh a + d) % n + n - hashAt sh a) % n = d := by
      apply cyc_inj n (hashAt sh a) _ d (Nat.mod_lt _ hn) hd
      rw [cyc_hit n (hashAt sh a) ((hashAt sh a + d) % n) hs hhs]
    rw [hdd]
    intro j hj
    have hne : (hashAt sh a + j) % n ≠ (hashAt sh a + d) % n := by
      intro he
      have := cyc_inj n (hashAt sh a) j d (by omega) hd he
      omega
    constructor
    · exact (live_updSlot_iff idx ver _ a p _).mpr (Or.inr (hpath j hj).1)
    · rw [updSlot_ne _ _ _ _ hne]
      exact (hpath j hj).2

theorem uniq_after_claim (idx : Nat → IndexSlot) (ver n a p hstar : Nat)
    (hu : uniqIdx idx ver n)
    (hub : ∀ h, h < n → liveIdx idx ver h → (idx h).address ≠ a) :
    uniqIdx (updSlot idx hstar ⟨ver, a, p⟩) ver n := by
  intro h1 hh1 h2 hh2 hl1 hl2 he
  by_cases e1 : h1 = hstar <;> by_cases e2 : h2 = hstar
  · rw [e1, e2]
  · exfalso
    have hl2o : liveIdx idx ver h2 := by
      rcases (live_updSlot_iff idx ver hstar a p h2).mp hl2 with h | h
      · exact absurd h e2
      · exact h
    have ha2 : (idx h2).address = a := by
      rw [e1, updSlot_self] at he
      rw [updSlot_ne _ _ _ _ e2] at he
      exact he.symm
    exact hub h2 hh2 hl2o ha2
  · exfalso
    have hl1o : liveIdx idx ver h1 := by
      rcases (live_updSlot_iff idx ver hstar a p h1).mp hl1 with h | h
      · exact absurd h e1
      · exact h
    have ha1 : (idx h1).address = a := by
      rw [e2, updSlot_self] at he
      rw [updSlot_ne _ _ _ _ e1] at he
      exact he
    exact hub h1 hh1 hl1o ha1
  · have hl1o : liveIdx idx ver h1 := by
      rcases (live_updSlot_iff idx ver hstar a p h1).mp hl1 with h | h
      · exact absurd h e1
      · exact h
    have hl2o : liveIdx idx ver h2 := by
      rcases (live_updSlot_iff idx ver hstar a p h2).mp hl2 with h | h
      · exact absurd h e2
      · exact h
    rw [updSlot_ne _ _ _ _ e1, updSlot_ne _ _ _ _ e2] at he
    exact hu h1 hh1 h2 hh2 hl1o hl2o he

theorem chain_after_claim (idx : Nat → IndexSlot) (ver n sh a p d : Nat)
    (hs : hashAt sh a < n) (hd : d < n)
    (hpath : ∀ j, j < d → liveIdx idx ver ((hashAt sh a + j) % n) ∧
      (idx ((hashAt sh a + j) % n)).address ≠ a)
    (hchain : chainIdx idx ver n sh) :
    chainIdx (updSlot idx ((hashAt sh a + d) % n) ⟨ver, a, p⟩) ver n sh := by
  have hn : 0 < n := Nat.lt_of_le_of_lt (Nat.zero_le _) hs
  have hhs : (hashAt sh a + d) % n < n := Nat.mod_lt _ hn
  intro h hh hl j hj
  by_cases e1 : h = (hashAt sh a + d) % n
  · rw [e1, updSlot_self] at hj ⊢
    have hdd : ((hashAt sh a + d) % n + n - hashAt sh a) % n = d := by
      apply cyc_inj n (hashAt sh a) _ d (Nat.mod_lt _ hn) hd
      rw [cyc_hit n (hashAt sh a) ((hashAt sh a + d) % n) hs hhs]
    rw [hdd] at hj
    exact (live_updSlot_iff idx ver _ a p _).mpr (Or.inr (hpath j hj).1)
  · rw [updSlot_ne _ _ _ _ e1] at hj ⊢
    have hlo : liveIdx idx ver h := by
      rcases (live_updSlot_iff idx ver _ a p h).mp hl with hx | hx
      · exact absurd hx e1
      · exact hx
    exact (live_updSlot_iff idx ver _ a p _).mpr (Or.inr (hchain h hh hlo j hj))

theorem bound_after_claim (idx : Nat → IndexSlot) (ver n a p hstar : Nat)
    (hhs : hstar < n) (hnl : ¬ liveIdx idx ver hstar) :
    ∀ b, boundIdx (updSlot idx hstar ⟨ver, a, p⟩) ver n b ↔ b = a ∨ boundIdx idx ver n b := by
  intro b
  constructor
  · rintro ⟨h, hh, hl, haddr⟩
    by_cases e : h = hstar
    · left
      rw [e, updSlot_self] at haddr
      exact haddr.symm
    · right
      have hlo : liveIdx idx ver h := by
        rcases (live_updSlot_iff idx ver hstar a p h).mp hl with hx | hx
        · exact absurd hx e
        · exact hx
      rw [updSlot_ne _ _ _ _ e] at haddr
      exact ⟨h, hh, hlo, haddr⟩
  · rintro (rfl | ⟨h, hh, hl, haddr⟩)
    · refine ⟨hstar, hhs, ?_, ?_⟩
      · exact (live_updSlot_iff idx ver hstar b p hstar).mpr (Or.inl rfl)
      · rw [updSlot_self]
    · have e : h ≠ hstar := by
        intro he
        exact hnl (he ▸ hl)
      refine ⟨h, hh, ?_, ?_⟩
      · exact (live_updSlot_iff idx ver hstar a p h).mpr (Or.inr hl)
      · rw [updSlot_ne _ _ _ _ e]
        exact haddr

theorem versions_after_claim (idx : Nat → IndexSlot) (ver n a p hstar : Nat)
    (hver : ∀ h, h < n → (idx h).version ≤ ver) :
    ∀ h, h < n → ((updSlot idx hstar ⟨ver, a, p⟩) h).version ≤ ver := by
  intro h hh
  by_cases e : h = hstar
  · rw [e, updSlot_self]
  · rw [updSlot_ne _ _ _ _ e]
    exact hver h hh

theorem points_after_claim (idx : Nat → IndexSlot) (ver n : Nat)
    (l l2 : List WriteSetEntry) (ls ls2 a p hstar : Nat)
    (hp : pointsIdx idx ver n l ls)
    (hagree : ∀ i, i < ls → l2.getD i default = l.getD i default)
    (hls : ls ≤ ls2) (hpp : p < ls2) (hpa : (l2.getD p default).addr = a) :
    pointsIdx (updSlot idx hstar ⟨ver, a, p⟩) ver n l2 ls2 := by
  intro h hh hl
  by_cases e : h = hstar
  · rw [e, updSlot_self]
    exact ⟨hpp, hpa⟩
  · rw [updSlot_ne _ _ _ _ e]
    have hlo : liveIdx idx ver h := by
      rcases (live_updSlot_iff idx ver hstar a p h).mp hl with hx | hx
      · exact absurd hx e
      · exact hx
    obtain ⟨h1, h2⟩ := hp h hh hlo
    refine ⟨by omega, ?_⟩
    rw [hagree _ h1]
    exact h2

theorem liveFinset_after_claim (idx : Nat → IndexSlot) (ver n a p hstar : Nat)
    (hhs : hstar < n) :
    liveFinset (updSlot idx hstar ⟨ver, a, p⟩) ver n =
      insert hstar (liveFinset idx ver n) := by
  ext h
  have hmem : ∀ (g : Nat → IndexSlot) (x : Nat),
      x ∈ liveFinset g ver n ↔ x < n ∧ liveIdx g ver x := by
    intro g x
    unfold liveFinset
    rw [Finset.mem_filter, Finset.mem_range]
  rw [Finset.mem_insert, hmem, hmem, live_updSlot_iff]
  constructor
  · rintro ⟨hx, hy | hy⟩
    · exact Or.inl hy
    · exact Or.inr ⟨hx, hy⟩
  · rintro (rfl | ⟨hx, hy⟩)
    · exact ⟨hhs, Or.inl rfl⟩
    · exact ⟨hx, Or.inr hy⟩

/-! The rebuild reinsertion loop: inserting entries with pairwise distinct,
unbound addresses into a sparse table preserves the table invariants, adds
exactly the requested bindings, and leaves previously live slots intact. -/

theorem reinsert_fold (l : List WriteSetEntry) (n2 sh2 : Nat)
    (h32 : sh2 ≤ 32) (hle : 2 ^ (32 - sh2) ≤ n2) :
    ∀ (is : List Nat) (idx : Nat → IndexSlot),
      (∀ i ∈ is, ¬ boundIdx idx 1 n2 (l.getD i default).addr) →
      List.Pairwise (fun i j => (l.getD i default).addr ≠ (l.getD j default).addr) is →
      uniqIdx idx 1 n2 →
      chainIdx idx 1 n2 sh2 →
      (∀ h, h < n2 → (idx h).version ≤ 1) →
      (liveFinset idx 1 n2).card + is.length < n2 →
      uniqIdx (is.foldl (reinsertStep l n2 sh2) idx) 1 n2 ∧
      chainIdx (is.foldl (reinsertStep l n2 sh2) idx) 1 n2 sh2 ∧
      (∀ h, h < n2 → ((is.foldl (reinsertStep l n2 sh2) idx) h).version ≤ 1) ∧
      (liveFinset (is.foldl (reinsertStep l n2 sh2) idx) 1 n2).card ≤
        (liveFinset idx 1 n2).card + is.length ∧
      (∀ h, liveIdx idx 1 h → (is.foldl (reinsertStep l n2 sh2) idx) h = idx h) ∧
      (∀ i ∈ is, ∃ g, g < n2 ∧ liveIdx (is.foldl (reinsertStep l n2 sh2) idx) 1 g ∧
        ((is.foldl (reinsertStep l n2 sh2) idx) g).address = (l.getD i default).addr ∧
        ((is.foldl (reinsertStep l n2 sh2) idx) g).index = i) ∧
      (∀ h, h < n2 → liveIdx (is.foldl (reinsertStep l n2 sh2) idx) 1 h →
        liveIdx idx 1 h ∨ ∃ i, i ∈ is ∧
          ((is.foldl (reinsertStep l n2 sh2) idx) h).address = (l.getD i default).addr ∧
          ((is.foldl (reinsertStep l n2 sh2) idx) h).index = i) := by
  intro is
  induction is with
  | nil =>
    intro idx _ _ hu hch hv hcard
    refine ⟨hu, hch, hv, by simp, fun h _ => rfl, by simp, ?_⟩
    intro h hh hl
    exact Or.inl hl
  | cons i is1 ih =>
    intro idx hub hpair hu hch hv hcard
    have hn2 : 0 < n2 := by omega
    have hs : hashAt sh2 (l.getD i default).addr < n2 :=
      hashAt_lt sh2 (l.getD i default).addr n2 h32 hle
    have hfree : ∃ f, f < n2 ∧ ¬ liveIdx idx 1 f := by
      apply exists_free_of_card_lt
      simp only [List.length_cons] at hcard
      omega
    have hubi : ∀ h, h < n2 → liveIdx idx 1 h → (idx h).address ≠ (l.getD i default).addr := by
      intro h hh hl haddr
      exact hub i (List.mem_cons_self i is1) ⟨h, hh, hl, haddr⟩
    obtain ⟨d, hd, hpeq, hnl, hpath⟩ :=
      probeIdx_free idx 1 n2 (l.getD i default).addr (hashAt sh2 (l.getD i default).addr)
        hs hfree hubi
    have hstep : reinsertStep l n2 sh2 idx i =
        updSlot idx ((hashAt sh2 (l.getD i default).addr + d) % n2)
          ⟨1, (l.getD i default).addr, i⟩ := by
      unfold reinsertStep
      rw [hpeq]
    have hfold : (i :: is1).foldl (reinsertStep l n2 sh2) idx =
        is1.foldl (reinsertStep l n2 sh2)
          (updSlot idx ((hashAt sh2 (l.getD i default).addr + d) % n2)
            ⟨1, (l.getD i default).addr, i⟩) := by
      rw [List.foldl_cons, hstep]
    have hhs : (hashAt sh2 (l.getD i default).addr + d) % n2 < n2 := Nat.mod_lt _ hn2
    have hu1 : uniqIdx (updSlot idx ((hashAt sh2 (l.getD i default).addr + d) % n2)
        ⟨1, (l.getD i default).addr, i⟩) 1 n2 :=
      uniq_after_claim idx 1 n2 (l.getD i default).addr i _ hu hubi
    have hch1 : chainIdx (updSlot idx ((hashAt sh2 (l.getD i default).addr + d) % n2)
        ⟨1, (l.getD i default).addr, i⟩) 1 n2 sh2 :=
      chain_after_claim idx 1 n2 sh2 (l.getD i default).addr i d hs hd hpath hch
    have hv1 : ∀ h, h < n2 → ((updSlot idx ((hashAt sh2 (l.getD i default).addr + d) % n2)
        ⟨1, (l.getD i default).addr, i⟩) h).version ≤ 1 :=
      versions_after_claim idx 1 n2 (l.getD i default).addr i _ hv
    have hbound1 := bound_after_claim idx 1 n2 (l.getD i default).addr i
      ((hashAt sh2 (l.getD i default).addr + d) % n2) hhs hnl
    have hlive1 := live_updSlot_iff idx 1 ((hashAt sh2 (l.getD i default).addr + d) % n2)
      (l.getD i default).addr i
    have hcardeq := liveFinset_after_claim idx 1 n2 (l.getD i default).addr i
      ((hashAt sh2 (l.getD i default).addr + d) % n2) hhs
    have hcard1 : (liveFinset (updSlot idx ((hashAt sh2 (l.getD i default).addr + d) % n2)
        ⟨1, (l.getD i default).addr, i⟩) 1 n2).card ≤ (liveFinset idx 1 n2).card + 1 := by
      rw [hcardeq]
      exact Finset.card_insert_le _ _
    have hpairhead : ∀ j ∈ is1, (l.getD i default).addr ≠ (l.getD j default).addr :=
      (List.pairwise_cons.mp hpair).1
    have hub1 : ∀ j ∈ is1, ¬ boundIdx (updSlot idx ((hashAt sh2 (l.getD i default).addr + d) % n2)
        ⟨1, (l.getD i default).addr, i⟩) 1 n2 (l.getD j default).addr := by
      intro j hj hb
      rcases (hbound1 (l.getD j default).addr).mp hb with he | hbo
      · exact hpairhead j hj he.symm
      · exact hub j (List.mem_cons_of_mem i hj) hbo
    have hcard2 : (liveFinset (updSlot idx ((hashAt sh2 (l.getD i default).addr + d) % n2)
        ⟨1, (l.getD i default).addr, i⟩) 1 n2).card + is1.length < n2 := by
      simp only [List.length_cons] at hcard
      omega
    obtain ⟨ihu, ihch, ihv, ihcard, ihstab, ihex, ihorig⟩ :=
      ih (updSlot idx ((hashAt sh2 (l.getD i default).addr + d) % n2)
        ⟨1, (l.getD i default).addr, i⟩) hub1 (List.pairwise_cons.mp hpair).2 hu1 hch1 hv1 hcard2
    rw [hfold]
    refine ⟨ihu, ihch, ihv, ?_, ?_, ?_, ?_⟩
    · simp only [List.length_cons]
      omega
    · intro h hl
      have hne : h ≠ (hashAt sh2 (l.getD i default).addr + d) % n2 := by
        intro he
        exact hnl (he ▸ hl)
      have h1 : updSlot idx ((hashAt sh2 (l.getD i default).addr + d) % n2)
          ⟨1, (l.getD i default).addr, i⟩ h = idx h := updSlot_ne _ _ _ _ hne
      have h2 : liveIdx (updSlot idx ((hashAt sh2 (l.getD i default).addr + d) % n2)
          ⟨1, (l.getD i default).addr, i⟩) 1 h := (hlive1 h).mpr (Or.inr hl)
      rw [ihstab h h2, h1]
    · intro j hj
      rcases List.mem_cons.mp hj with he | hj1
      · subst he
        refine ⟨(hashAt sh2 (l.getD j default).addr + d) % n2, hhs, ?_, ?_, ?_⟩
        · have h2 : liveIdx (updSlot idx ((hashAt sh2 (l.getD j default).addr + d) % n2)
              ⟨1, (l.getD j default).addr, j⟩) 1 ((hashAt sh2 (l.getD j default).addr + d) % n2) :=
            (hlive1 _).mpr (Or.inl rfl)
          unfold liveIdx
          rw [ihstab _ h2, updSlot_self]
        · have h2 : liveIdx (updSlot idx ((hashAt sh2 (l.getD j default).addr + d) % n2)
              ⟨1, (l.getD j default).addr, j⟩) 1 ((hashAt sh2 (l.getD j default).addr + d) % n2) :=
            (hlive1 _).mpr (Or.inl rfl)
          rw [ihstab _ h2, updSlot_self]
        · have h2 : liveIdx (updSlot idx ((hashAt sh2 (l.getD j default).addr + d) % n2)
              ⟨1, (l.getD j default).addr, j⟩) 1 ((hashAt sh2 (l.getD j default).addr + d) % n2) :=
            (hlive1 _).mpr (Or.inl rfl)
          rw [ihstab _ h2, updSlot_self]
      · obtain ⟨g, hg, hgl, hga, hgi⟩ := ihex j hj1
        exact ⟨g, hg, hgl, hga, hgi⟩
    · intro h hh hl
      rcases ihorig h hh hl with hl1 | ⟨j, hj, hja, hji⟩
      · rcases (hlive1 h).mp hl1 with he | hlo
        · right
          refine ⟨i, List.mem_cons_self i is1, ?_, ?_⟩
          · rw [ihstab h hl1, he, updSlot_self]
          · rw [ihstab h hl1, he, updSlot_self]
        · exact Or.inl hlo
      · exact Or.inr ⟨j, List.mem_cons_of_mem i hj, hja, hji⟩

theorem entryLive_iff (ws : WriteSet) (i : Nat) :
    ws.entryLive i = true ↔
      ∃ h, h < ws.ilength ∧ liveIdx ws.index ws.version h ∧ (ws.index h).index = i := by
  unfold WriteSet.entryLive
  simp [List.any_eq_true, liveIdx, and_assoc]

theorem pow_le_double (sh n : Nat) (h32 : sh ≤ 32) (hle : 2 ^ (32 - sh) ≤ n) :
    2 ^ (32 - (sh - 1)) ≤ 2 * n := by
  rcases Nat.eq_zero_or_pos sh with h0 | h1
  · subst h0
    simp only [Nat.sub_zero] at hle ⊢
    omega
  · have he : 32 - (sh - 1) = (32 - sh) + 1 := by omega
    rw [he, pow_succ]
    omega

theorem rebuild_spec (t : WriteSet)
    (hp : pointsIdx t.index t.version t.ilength t.list t.lsize)
    (hu : uniqIdx t.index t.version t.ilength)
    (h32 : t.shift ≤ 32) (hle : 2 ^ (32 - t.shift) ≤ t.ilength)
    (_hn : 0 < t.ilength) (hls : t.lsize < 2 * t.ilength) :
    t.rebuild.lsize = t.lsize ∧ t.rebuild.list = t.list ∧
    t.rebuild.ilength = 2 * t.ilength ∧ t.rebuild.version = 1 ∧
    t.rebuild.shift = t.shift - 1 ∧ t.rebuild.capacity = t.capacity ∧
    pointsIdx t.rebuild.index 1 t.rebuild.ilength t.list t.lsize ∧
    uniqIdx t.rebuild.index 1 t.rebuild.ilength ∧
    chainIdx t.rebuild.index 1 t.rebuild.ilength t.rebuild.shift ∧
    (∀ h, h < t.rebuild.ilength → (t.rebuild.index h).version ≤ 1) ∧
    (liveFinset t.rebuild.index 1 t.rebuild.ilength).card ≤ t.lsize ∧
    (∀ b, boundIdx t.rebuild.index 1 t.rebuild.ilength b ↔
      boundIdx t.index t.version t.ilength b) ∧
    (∀ h, h < t.ilength → liveIdx t.index t.version h →
      ∃ g, g < t.rebuild.ilength ∧ liveIdx t.rebuild.index 1 g ∧
        (t.rebuild.index g).address = (t.index h).address ∧
        (t.rebuild.index g).index = (t.index h).index) := by
  have h32b : t.shift - 1 ≤ 32 := by omega
  have hleb : 2 ^ (32 - (t.shift - 1)) ≤ 2 * t.ilength := pow_le_double t.shift t.ilength h32 hle
  have hmemis : ∀ i, i ∈ (List.range t.lsize).filter (fun i => t.entryLive i) ↔
      i < t.lsize ∧ t.entryLive i = true := by
    intro i
    rw [List.mem_filter, List.mem_range]
  have hlenis : ((List.range t.lsize).filter fun i => t.entryLive i).length ≤ t.lsize := by
    calc ((List.range t.lsize).filter fun i => t.entryLive i).length
        ≤ (List.range t.lsize).length := List.length_filter_le _ _
      _ = t.lsize := List.length_range t.lsize
  -- Distinctness of the reinserted addresses.
  have haddrinj : ∀ i ∈ (List.range t.lsize).filter (fun i => t.entryLive i),
      ∀ j ∈ (List.range t.lsize).filter (fun i => t.entryLive i),
      i ≠ j → (t.list.getD i default).addr ≠ (t.list.getD j default).addr := by
    intro i hi j hj hij ha
    obtain ⟨hi1, hi2⟩ := (hmemis i).mp hi
    obtain ⟨hj1, hj2⟩ := (hmemis j).mp hj
    obtain ⟨g1, hg1, hgl1, hgi1⟩ := (entryLive_iff t i).mp hi2
    obtain ⟨g2, hg2, hgl2, hgi2⟩ := (entryLive_iff t j).mp hj2
    have hp1 := (hp g1 hg1 hgl1).2
    have hp2 := (hp g2 hg2 hgl2).2
    rw [hgi1] at hp1
    rw [hgi2] at hp2
    have : g1 = g2 := by
      apply hu g1 hg1 g2 hg2 hgl1 hgl2
      rw [← hp1, ← hp2, ha]
    rw [this, hgi2] at hgi1
    exact hij hgi1.symm
  have hpairw : List.Pairwise
      (fun i j => (t.list.getD i default).addr ≠ (t.list.getD j default).addr)
      ((List.range t.lsize).filter fun i => t.entryLive i) := by
    have hnd : ((List.range t.lsize).filter fun i => t.entryLive i).Nodup :=
      (List.nodup_range t.lsize).filter _
    exact List.Pairwise.imp_of_mem (fun ha hb hne => haddrinj _ ha _ hb hne) hnd
  -- The fresh table is empty.
  have hlive0 : ∀ h, ¬ liveIdx (fun _ => (default : IndexSlot)) 1 h := by
    intro h hl
    unfold liveIdx at hl
    simp at hl
  have hcard0 : (liveFinset (fun _ => (default : IndexSlot)) 1 (2 * t.ilength)).card = 0 := by
    rw [Finset.card_eq_zero]
    unfold liveFinset
    rw [Finset.filter_eq_empty_iff]
    intro h _
    exact hlive0 h
  obtain ⟨fu, fch, fv, fcard, fstab, fex, forig⟩ :=
    reinsert_fold t.list (2 * t.ilength) (t.shift - 1) h32b hleb
      ((List.range t.lsize).filter fun i => t.entryLive i)
      (fun _ => default)
      (fun i _ hb => by
        obtain ⟨g, _, hgl, _⟩ := hb
        exact hlive0 g hgl)
      hpairw
      (fun h1 _ h2 _ hl1 _ _ => absurd hl1 (hlive0 h1))
      (fun h hh hl => absurd hl (hlive0 h))
      (fun h _ => Nat.zero_le 1)
      (by rw [hcard0]; omega)
  have hidx : t.rebuild.index =
      ((List.range t.lsize).filter fun i => t.entryLive i).foldl
        (reinsertStep t.list (2 * t.ilength) (t.shift - 1)) fun _ => default := rfl
  refine ⟨rfl, rfl, rfl, rfl, rfl, rfl, ?_, ?_, ?_, ?_, ?_, ?_, ?_⟩
  · -- pointsIdx for the rebuilt table
    intro g hg hgl
    rw [hidx] at hgl ⊢
    rcases forig g hg hgl with hl0 | ⟨i, hi, hia, hii⟩
    · exact absurd hl0 (hlive0 g)
    · obtain ⟨hi1, _⟩ := (hmemis i).mp hi
      rw [hii, hia]
      exact ⟨hi1, rfl⟩
  · rw [hidx]
    exact fu
  · rw [hidx]
    exact fch
  · rw [hidx]
    exact fv
  · rw [hidx]
    calc (liveFinset _ 1 (2 * t.ilength)).card
        ≤ (liveFinset (fun _ => (default : IndexSlot)) 1 (2 * t.ilength)).card +
          ((List.range t.lsize).filter fun i => t.entryLive i).length := fcard
      _ ≤ t.lsize := by rw [hcard0]; omega
  · intro b
    rw [hidx]
    constructor
    · rintro ⟨g, hg, hgl, hga⟩
      rcases forig g hg hgl with hl0 | ⟨i, hi, hia, hii⟩
      · exact absurd hl0 (hlive0 g)
      · obtain ⟨_, hi2⟩ := (hmemis i).mp hi
        obtain ⟨h, hh, hhl, hhi⟩ := (entryLive_iff t i).mp hi2
        have hpt := (hp h hh hhl).2
        rw [hhi] at hpt
        refine ⟨h, hh, hhl, ?_⟩
        rw [← hpt, ← hia]
        exact hga
    · rintro ⟨h, hh, hhl, hha⟩
      have hpt := hp h hh hhl
      have hiel : t.entryLive (t.index h).index = true :=
        (entryLive_iff t (t.index h).index).mpr ⟨h, hh, hhl, rfl⟩
      have hmem : (t.index h).index ∈ (List.range t.lsize).filter fun i => t.entryLive i :=
        (hmemis _).mpr ⟨hpt.1, hiel⟩
      obtain ⟨g, hg, hgl, hga, hgi⟩ := fex _ hmem
      exact ⟨g, hg, hgl, by rw [hga, hpt.2, hha]⟩
  · intro h hh hhl
    rw [hidx]
    have hpt := hp h hh hhl
    have hiel : t.entryLive (t.index h).index = true :=
      (entryLive_iff t (t.index h).index).mpr ⟨h, hh, hhl, rfl⟩
    have hmem : (t.index h).index ∈ (List.range t.lsize).filter fun i => t.entryLive i :=
      (hmemis _).mpr ⟨hpt.1, hiel⟩
    obtain ⟨g, hg, hgl, hga, hgi⟩ := fex _ hmem
    exact ⟨g, hg, hgl, by rw [hga, hpt.2], hgi⟩

/-! Probing for an address whose live slot is chain-reachable finds exactly
that slot; the table-level statement used for find after insert or rebuild. -/

theorem probe_eq_of_slot (t : WriteSet) (a g : Nat)
    (hu : uniqIdx t.index t.version t.ilength)
    (hch : chainIdx t.index t.version t.ilength t.shift)
    (h32 : t.shift ≤ 32) (hle : 2 ^ (32 - t.shift) ≤ t.ilength)
    (hg : g < t.ilength) (hgl : liveIdx t.index t.version g)
    (hga : (t.index g).address = a) :
    t.probe a = ProbeResult.found g := by
  have hn : 0 < t.ilength := by omega
  have hs : hashAt t.shift a < t.ilength := hashAt_lt _ a _ h32 hle
  have hd : (g + t.ilength - hashAt t.shift a) % t.ilength < t.ilength := Nat.mod_lt _ hn
  have hhit : (hashAt t.shift a + (g + t.ilength - hashAt t.shift a) % t.ilength) % t.ilength
      = g := cyc_hit _ _ _ hs hg
  have hpath : ∀ j, j < (g + t.ilength - hashAt t.shift a) % t.ilength →
      liveIdx t.index t.version ((hashAt t.shift a + j) % t.ilength) ∧
      (t.index ((hashAt t.shift a + j) % t.ilength)).address ≠ a := by
    intro j hj
    have hlj : liveIdx t.index t.version ((hashAt t.shift a + j) % t.ilength) := by
      have hx := hch g hg hgl j (by rw [hga]; exact hj)
      rw [hga] at hx
      exact hx
    refine ⟨hlj, ?_⟩
    intro ha2
    have hplt : (hashAt t.shift a + j) % t.ilength < t.ilength := Nat.mod_lt _ hn
    have heq : (hashAt t.shift a + j) % t.ilength = g :=
      hu _ hplt g hg hlj hgl (by rw [ha2, hga])
    have hjd : j = (g + t.ilength - hashAt t.shift a) % t.ilength := by
      apply cyc_inj t.ilength (hashAt t.shift a) j _ (by omega) hd
      rw [hhit]
      exact heq
    omega
  exact probeIdx_found t.index t.version t.ilength a (hashAt t.shift a) g hs hg hgl hga hpath

theorem find_eq_of_slot (t : WriteSet) (a g : Nat)
    (hu : uniqIdx t.index t.version t.ilength)
    (hch : chainIdx t.index t.version t.ilength t.shift)
    (h32 : t.shift ≤ 32) (hle : 2 ^ (32 - t.shift) ≤ t.ilength)
    (hg : g < t.ilength) (hgl : liveIdx t.index t.version g)
    (hga : (t.index g).address = a) :
    t.find a = some ((t.list.getD (t.index g).index default).val) := by
  have hpe := probe_eq_of_slot t a g hu hch h32 hle hg hgl hga
  unfold WriteSet.find
  rw [hpe]

/-! Reduction of insert to its three probe outcomes. -/

theorem insert_eq_free_case (ws : WriteSet) (a v : Nat) (h : Nat)
    (hpe : ws.probe a = ProbeResult.free h) :
    ws.insert a v = (false,
      (fun ws2 : WriteSet =>
        if ws2.lsize * 3 ≥ ws2.ilength then ws2.rebuild else ws2)
      ((fun ws1 : WriteSet => if ws1.lsize = ws1.capacity then ws1.resize else ws1)
        { ws with
          list := listWrite ws.list ws.lsize ⟨a, v⟩
          index := updSlot ws.index h ⟨ws.version, a, ws.lsize⟩
          lsize := ws.lsize + 1 })) := by
  unfold WriteSet.insert
  rw [hpe]

theorem insert_eq_found_case (ws : WriteSet) (a v : Nat) (h : Nat)
    (hpe : ws.probe a = ProbeResult.found h) :
    ws.insert a v = (true, { ws with
      list := ws.list.set (ws.index h).index
        { ws.list.getD (ws.index h).index default with val := v } }) := by
  unfold WriteSet.insert
  rw [hpe]

/-! A fresh insert, after the append and slot claim, runs the rebuild check;
either branch satisfies the fresh-insert postcondition. -/

theorem fresh_post_branch (ws : WriteSet) (a v : Nat) (t : WriteSet)
    (he_ls : t.lsize = ws.lsize + 1)
    (he_il : t.ilength = ws.ilength)
    (he_sh : t.shift = ws.shift)
    (he_ve : t.version = ws.version)
    (htake : t.list.take t.lsize = ws.list.take ws.lsize ++ [⟨a, v⟩])
    (hlen2 : t.lsize ≤ t.list.length)
    (hpoints : pointsIdx t.index t.version t.ilength t.list t.lsize)
    (huq : uniqIdx t.index t.version t.ilength)
    (hchimp : ws.chainOK → chainIdx t.index t.version t.ilength t.shift)
    (hversb : ∀ h, h < t.ilength → (t.index h).version ≤ t.version)
    (hboundiff : ∀ b, boundIdx t.index t.version t.ilength b ↔ b = a ∨ ws.bound b)
    (hfind : t.find a = some v)
    (hgd : t.list.getD ws.lsize default = ⟨a, v⟩)
    (hslot : ∃ g, g < t.ilength ∧ liveIdx t.index t.version g ∧
      (t.index g).address = a ∧ (t.index g).index = ws.lsize)
    (h4 : 4 ≤ ws.ilength) (hle : 2 ^ (32 - ws.shift) ≤ ws.ilength) (h32 : ws.shift ≤ 32)
    (hload : ws.lsize * 3 < ws.ilength) (hver1 : 1 ≤ ws.version)
    (hver64 : ws.version < 2 ^ 64) :
    FreshPost ws a v (if t.lsize * 3 ≥ t.ilength then t.rebuild else t) := by
  by_cases hreb : t.lsize * 3 ≥ t.ilength
  · rw [if_pos hreb]
    have h32t : t.shift ≤ 32 := by rw [he_sh]; exact h32
    have hlet : 2 ^ (32 - t.shift) ≤ t.ilength := by rw [he_sh, he_il]; exact hle
    have hnt : 0 < t.ilength := by rw [he_il]; omega
    have hlst : t.lsize < 2 * t.ilength := by rw [he_ls, he_il]; omega
    obtain ⟨r_ls, r_li, r_il, r_ve, r_sh, r_cap, r_pts, r_uq, r_ch, r_vers, r_card,
        r_bnd, r_cor⟩ := rebuild_spec t hpoints huq h32t hlet hnt hlst
    have h32r : t.rebuild.shift ≤ 32 := by rw [r_sh]; omega
    have hler : 2 ^ (32 - t.rebuild.shift) ≤ t.rebuild.ilength := by
      rw [r_sh, r_il]
      exact pow_le_double t.shift t.ilength h32t hlet
    have r_uq2 : uniqIdx t.rebuild.index t.rebuild.version t.rebuild.ilength := by
      rw [r_ve]
      exact r_uq
    have r_ch2 : chainIdx t.rebuild.index t.rebuild.version t.rebuild.ilength
        t.rebuild.shift := by
      rw [r_ve]
      exact r_ch
    refine ⟨?_, ?_, ?_, ?_, ?_, ?_, ?_⟩
    · rw [r_ls, he_ls]
    · rw [r_li, r_ls]
      exact htake
    · obtain ⟨g, hg1, hg2, hg3, hg4⟩ := hslot
      obtain ⟨g2, hg2a, hg2b, hg2c, hg2d⟩ := r_cor g hg1 hg2
      have hg2l : liveIdx t.rebuild.index t.rebuild.version g2 := by
        rw [r_ve]
        exact hg2b
      have hfe := find_eq_of_slot t.rebuild a g2 r_uq2 r_ch2 h32r hler hg2a hg2l
        (by rw [hg2c, hg3])
      rw [hfe, hg2d, hg4, r_li, hgd]
    · intro b
      have hb1 : boundIdx t.rebuild.index t.rebuild.version t.rebuild.ilength b ↔
          boundIdx t.index t.version t.ilength b := by
        rw [r_ve]
        exact r_bnd b
      exact hb1.trans (hboundiff b)
    · refine ⟨?_, ?_, ?_, ?_, ?_, ?_, ?_, ?_, ?_, ?_⟩
      · rw [r_il, he_il]
        omega
      · exact hler
      · exact h32r
      · rw [r_ls, r_li]
        exact hlen2
      · rw [r_ls, r_il, he_ls, he_il]
        omega
      · rw [r_ve]
      · rw [r_ve]
        norm_num
      · intro h hh
        rw [r_ve]
        exact r_vers h hh
      · rw [r_ve, r_li, r_ls]
        exact r_pts
      · exact r_uq2
    · intro _
      exact r_ch2
    · right
      rw [r_il, he_il]
  · rw [if_neg hreb]
    refine ⟨he_ls, htake, hfind, ?_, ?_, hchimp, Or.inl he_il⟩
    · intro b
      exact hboundiff b
    · refine ⟨?_, ?_, ?_, hlen2, ?_, ?_, ?_, hversb, hpoints, huq⟩
      · rw [he_il]
        exact h4
      · rw [he_sh, he_il]
        exact hle
      · rw [he_sh]
        exact h32
      · omega
      · rw [he_ve]
        exact hver1
      · rw [he_ve]
        exact hver64

theorem insert_fresh_spec (ws : WriteSet) (a v : Nat)
    (hc : ws.wfCore) (hub : ¬ ws.bound a) :
    (ws.insert a v).1 = false ∧ FreshPost ws a v (ws.insert a v).2 := by
  obtain ⟨h4, hle, h32, hlen, hload, hver1, hver64, hvers, hp, hu⟩ := hc
  have hn : 0 < ws.ilength := by omega
  have hs : hashAt ws.shift a < ws.ilength := hashAt_lt ws.shift a ws.ilength h32 hle
  have hfree : ∃ f, f < ws.ilength ∧ ¬ liveIdx ws.index ws.version f :=
    exists_free_of_wfCore ws ⟨h4, hle, h32, hlen, hload, hver1, hver64, hvers, hp, hu⟩
  have hunb : ∀ h, h < ws.ilength → liveIdx ws.index ws.version h →
      (ws.index h).address ≠ a := fun h hh hl ha => hub ⟨h, hh, hl, ha⟩
  obtain ⟨d, hd, hpeq, hnl, hpath⟩ :=
    probeIdx_free ws.index ws.version ws.ilength a (hashAt ws.shift a) hs hfree hunb
  have hpe : ws.probe a = ProbeResult.free ((hashAt ws.shift a + d) % ws.ilength) := hpeq
  have hhs : (hashAt ws.shift a + d) % ws.ilength < ws.ilength := Nat.mod_lt _ hn
  have hins := insert_eq_free_case ws a v ((hashAt ws.shift a + d) % ws.ilength) hpe
  -- facts about the appended state
  set ws1 : WriteSet :=
    { ws with
      list := listWrite ws.list ws.lsize ⟨a, v⟩
      index := updSlot ws.index ((hashAt ws.shift a + d) % ws.ilength)
        ⟨ws.version, a, ws.lsize⟩
      lsize := ws.lsize + 1 } with hws1
  have e_ls : ws1.lsize = ws.lsize + 1 := rfl
  have e_ix : ws1.index = updSlot ws.index ((hashAt ws.shift a + d) % ws.ilength)
      ⟨ws.version, a, ws.lsize⟩ := rfl
  have e_li : ws1.list = listWrite ws.list ws.lsize ⟨a, v⟩ := rfl
  have e_il : ws1.ilength = ws.ilength := rfl
  have e_sh : ws1.shift = ws.shift := rfl
  have e_ve : ws1.version = ws.version := rfl
  have f_take : ws1.list.take ws1.lsize = ws.list.take ws.lsize ++ [⟨a, v⟩] := by
    rw [e_li, e_ls]
    exact take_listWrite ws.list ws.lsize ⟨a, v⟩ hlen
  have f_len : ws1.lsize ≤ ws1.list.length := by
    rw [e_li, e_ls]
    exact listWrite_succ_le_length ws.list ws.lsize ⟨a, v⟩ hlen
  have f_gd : ws1.list.getD ws.lsize default = ⟨a, v⟩ := by
    rw [e_li]
    exact listWrite_getD_self ws.list ws.lsize ⟨a, v⟩ default hlen
  have f_points : pointsIdx ws1.index ws1.version ws1.ilength ws1.list ws1.lsize := by
    rw [e_ix, e_ve, e_il, e_li, e_ls]
    refine points_after_claim ws.index ws.version ws.ilength ws.list
      (listWrite ws.list ws.lsize ⟨a, v⟩) ws.lsize (ws.lsize + 1) a ws.lsize
      ((hashAt ws.shift a + d) % ws.ilength) hp ?_ (Nat.le_succ _) (Nat.lt_succ_self _) ?_
    · intro i hi
      exact listWrite_getD_lt ws.list ws.lsize ⟨a, v⟩ i default hi hlen
    · rw [listWrite_getD_self ws.list ws.lsize ⟨a, v⟩ default hlen]
  have f_uniq : uniqIdx ws1.index ws1.version ws1.ilength := by
    rw [e_ix, e_ve, e_il]
    exact uniq_after_claim ws.index ws.version ws.ilength a ws.lsize
      ((hashAt ws.shift a + d) % ws.ilength) hu hunb
  have f_chain : ws.chainOK → chainIdx ws1.index ws1.version ws1.ilength ws1.shift := by
    intro hch
    rw [e_ix, e_ve, e_il, e_sh]
    exact chain_after_claim ws.index ws.version ws.ilength ws.shift a ws.lsize d
      hs hd hpath hch
  have f_vers : ∀ h, h < ws1.ilength → (ws1.index h).version ≤ ws1.version := by
    rw [e_ix, e_ve, e_il]
    exact versions_after_claim ws.index ws.version ws.ilength a ws.lsize
      ((hashAt ws.shift a + d) % ws.ilength) hvers
  have f_bound : ∀ b, boundIdx ws1.index ws1.version ws1.ilength b ↔
      b = a ∨ ws.bound b := by
    rw [e_ix, e_ve, e_il]
    exact bound_after_claim ws.index ws.version ws.ilength a ws.lsize
      ((hashAt ws.shift a + d) % ws.ilength) hhs hnl
  have f_probe : ws1.probe a = ProbeResult.found ((hashAt ws.shift a + d) % ws.ilength) := by
    have hx : probeIdx ws1.index ws1.version ws1.ilength a ws1.ilength
        (hashAt ws1.shift a) = ProbeResult.found ((hashAt ws.shift a + d) % ws.ilength) := by
      rw [e_ix, e_ve, e_il, e_sh]
      exact probeIdx_after_claim ws.index ws.version ws.ilength ws.shift a ws.lsize d
        hs hd hpath
    exact hx
  have f_find : ws1.find a = some v := by
    unfold WriteSet.find
    rw [f_probe]
    show some ((ws1.list.getD
      (ws1.index ((hashAt ws.shift a + d) % ws.ilength)).index default).val) = some v
    rw [e_ix, updSlot_self, f_gd]
  have f_slot : ∃ g, g < ws1.ilength ∧ liveIdx ws1.index ws1.version g ∧
      (ws1.index g).address = a ∧ (ws1.index g).index = ws.lsize := by
    refine ⟨(hashAt ws.shift a + d) % ws.ilength, ?_, ?_, ?_, ?_⟩
    · rw [e_il]
      exact hhs
    · rw [e_ix, e_ve]
      unfold liveIdx
      rw [updSlot_self]
    · rw [e_ix, updSlot_self]
    · rw [e_ix, updSlot_self]
  constructor
  · rw [hins]
  · have h2eq : (ws.insert a v).2 =
        if (if ws1.lsize = ws1.capacity then ws1.resize else ws1).lsize * 3 ≥
            (if ws1.lsize = ws1.capacity then ws1.resize else ws1).ilength
        then (if ws1.lsize = ws1.capacity then ws1.resize else ws1).rebuild
        else (if ws1.lsize = ws1.capacity then ws1.resize else ws1) := by
      rw [hins]
    rw [h2eq]
    by_cases hcap : ws1.lsize = ws1.capacity
    · rw [if_pos hcap]
      exact fresh_post_branch ws a v ws1.resize e_ls e_il e_sh e_ve f_take f_len
        f_points f_uniq f_chain f_vers f_bound f_find f_gd f_slot
        h4 hle h32 hload hver1 hver64
    · rw [if_neg hcap]
      exact fresh_post_branch ws a v ws1 e_ls e_il e_sh e_ve f_take f_len
        f_points f_uniq f_chain f_vers f_bound f_find f_gd f_slot
        h4 hle h32 hload hver1 hver64

theorem insert_found_spec (ws : WriteSet) (a v : Nat) (hwf : ws.wf) (hb : ws.bound a) :
    (ws.insert a v).1 = true ∧ FoundPost ws a v (ws.insert a v).2 := by
  obtain ⟨⟨h4, hle, h32, hlen, hload, hver1, hver64, hvers, hp, hu⟩, hch⟩ := hwf
  obtain ⟨g, hg, hgl, hga⟩ := hb
  have hpe : ws.probe a = ProbeResult.found g :=
    probe_eq_of_slot ws a g hu hch h32 hle hg hgl hga
  have hins := insert_eq_found_case ws a v g hpe
  have hpi := hp g hg hgl
  have hilen : (ws.index g).index < ws.list.length := by omega
  set t : WriteSet :=
    { ws with
      list := ws.list.set (ws.index g).index
        { ws.list.getD (ws.index g).index default with val := v } } with ht
  have e_ix : t.index = ws.index := rfl
  have e_li : t.list = ws.list.set (ws.index g).index
      { ws.list.getD (ws.index g).index default with val := v } := rfl
  have tlen : t.list.length = ws.list.length := by
    rw [e_li, List.length_set]
  have hgde : t.list.getD (ws.index g).index default =
      { ws.list.getD (ws.index g).index default with val := v } := by
    rw [e_li, List.getD_eq_getD_get?, List.get?_set_eq_of_lt _ hilen]
    rfl
  have hgdn : ∀ j, j ≠ (ws.index g).index → t.list.getD j default = ws.list.getD j default := by
    intro j hj
    rw [e_li, List.getD_eq_getD_get?, List.get?_set_ne _ _ (fun he => hj he.symm),
      ← List.getD_eq_getD_get?]
  have f_probe : t.probe a = ProbeResult.found g := hpe
  have f_find : t.find a = some v := by
    unfold WriteSet.find
    rw [f_probe]
    show some ((t.list.getD (t.index g).index default).val) = some v
    rw [e_ix, hgde]
  have f_points : pointsIdx t.index t.version t.ilength t.list t.lsize := by
    intro h hh hl
    obtain ⟨q1, q2⟩ := hp h hh hl
    refine ⟨q1, ?_⟩
    by_cases he : (ws.index h).index = (ws.index g).index
    · rw [e_ix]
      show (t.list.getD (ws.index h).index default).addr = (ws.index h).address
      rw [he, hgde]
      show (ws.list.getD (ws.index g).index default).addr = (ws.index h).address
      rw [← he]
      exact q2
    · rw [e_ix]
      show (t.list.getD (ws.index h).index default).addr = (ws.index h).address
      rw [hgdn _ he]
      exact q2
  have f_wf : t.wf := by
    refine ⟨⟨h4, hle, h32, ?_, hload, hver1, hver64, hvers, f_points, hu⟩, hch⟩
    rw [tlen]
    exact hlen
  constructor
  · rw [hins]
  · have h2eq : (ws.insert a v).2 = t := by
      rw [hins]
    rw [h2eq]
    exact ⟨rfl, tlen, rfl, rfl, rfl, rfl, f_find, fun b => Iff.rfl, f_wf⟩

/-! Reset: the version bump logically empties the table, with the physical
clear exactly on counter wraparound. -/

theorem reset_nonoverflow (ws : WriteSet) (h : ws.version + 1 < 2 ^ 64) :
    ws.reset = { ws with lsize := 0, version := ws.version + 1 } := by
  have h0 : ws.reset =
      if (ws.version + 1) % 2 ^ 64 ≠ 0
      then { ws with lsize := 0, version := (ws.version + 1) % 2 ^ 64 }
      else ({ ws with lsize := 0, version := (ws.version + 1) % 2 ^ 64 } :
        WriteSet).reset_internal := rfl
  have h1 : (ws.version + 1) % 2 ^ 64 = ws.version + 1 := Nat.mod_eq_of_lt h
  rw [h0, h1, if_pos (by omega)]

theorem reset_overflow (ws : WriteSet) (h : ws.version = 2 ^ 64 - 1) :
    ws.reset = { ws with lsize := 0, index := (fun _ => default), version := 1 } := by
  have h0 : ws.reset =
      if (ws.version + 1) % 2 ^ 64 ≠ 0
      then { ws with lsize := 0, version := (ws.version + 1) % 2 ^ 64 }
      else ({ ws with lsize := 0, version := (ws.version + 1) % 2 ^ 64 } :
        WriteSet).reset_internal := rfl
  have h1 : (ws.version + 1) % 2 ^ 64 = 0 := by
    rw [h]
    norm_num
  rw [h0, h1, if_neg (by omega)]
  rfl

theorem find_none_of_no_live (t : WriteSet) (b : Nat)
    (hnl : ∀ h, h < t.ilength → ¬ liveIdx t.index t.version h)
    (h32 : t.shift ≤ 32) (hle : 2 ^ (32 - t.shift) ≤ t.ilength) :
    t.find b = none := by
  rcases Nat.eq_zero_or_pos t.ilength with h0 | hpos
  · have hst : t.probe b = ProbeResult.stuck := by
      show probeIdx t.index t.version t.ilength b t.ilength (t.hash b) = ProbeResult.stuck
      rw [h0]
      rfl
    unfold WriteSet.find
    rw [hst]
  · obtain ⟨m, hm⟩ : ∃ m, t.ilength = m + 1 := ⟨t.ilength - 1, by omega⟩
    have hs : hashAt t.shift b < t.ilength := hashAt_lt t.shift b t.ilength h32 hle
    have hnls : ¬ (t.index (hashAt t.shift b)).version = t.version := hnl _ hs
    have hfr : t.probe b = ProbeResult.free (hashAt t.shift b) := by
      show probeIdx t.index t.version t.ilength b t.ilength (hashAt t.shift b) =
        ProbeResult.free (hashAt t.shift b)
      rw [hm]
      show (if (t.index (hashAt t.shift b)).version = t.version then _
        else ProbeResult.free (hashAt t.shift b)) = ProbeResult.free (hashAt t.shift b)
      rw [if_neg hnls]
    unfold WriteSet.find
    rw [hfr]


theorem no_live_spec (t : WriteSet)
    (hnl : ∀ h, h < t.ilength → ¬ liveIdx t.index t.version h)
    (h4 : 4 ≤ t.ilength) (hle : 2 ^ (32 - t.shift) ≤ t.ilength) (h32 : t.shift ≤ 32)
    (hlen : t.lsize ≤ t.list.length) (hload : t.lsize * 3 < t.ilength)
    (hver1 : 1 ≤ t.version) (hver64 : t.version < 2 ^ 64)
    (hvers : ∀ h, h < t.ilength → (t.index h).version ≤ t.version) :
    (∀ b, t.find b = none) ∧ (∀ b, ¬ t.bound b) ∧ t.wf := by
  refine ⟨?_, ?_, ?_⟩
  · intro b
    exact find_none_of_no_live t b hnl h32 hle
  · rintro b ⟨h, hh, hl, _⟩
    exact hnl h hh hl
  · refine ⟨⟨h4, hle, h32, hlen, hload, hver1, hver64, hvers, ?_, ?_⟩, ?_⟩
    · intro h hh hl
      exact absurd hl (hnl h hh)
    · intro h1 hh1 h2 hh2 hl1 _ _
      exact absurd hl1 (hnl h1 hh1)
    · intro h hh hl
      exact absurd hl (hnl h hh)

theorem reset_spec (ws : WriteSet) (hc : ws.wfCore) :
    (ws.reset).lsize = 0 ∧
    (∀ h, h < (ws.reset).ilength → ¬ liveIdx (ws.reset).index (ws.reset).version h) ∧
    (∀ b, (ws.reset).find b = none) ∧
    (∀ b, ¬ (ws.reset).bound b) ∧
    (ws.reset).wf := by
  obtain ⟨h4, hle, h32, hlen, hload, hver1, hver64, hvers, hp, hu⟩ := hc
  by_cases hov : ws.version + 1 < 2 ^ 64
  · rw [reset_nonoverflow ws hov]
    have hnl : ∀ h, h < ws.ilength →
        ¬ liveIdx ws.index (ws.version + 1) h := by
      intro h hh hl
      have hx : (ws.index h).version = ws.version + 1 := hl
      have hy := hvers h hh
      omega
    obtain ⟨c1, c2, c3⟩ := no_live_spec { ws with lsize := 0, version := ws.version + 1 }
      hnl h4 hle h32 (Nat.zero_le _) (by show 0 * 3 < ws.ilength; omega)
      (by show 1 ≤ ws.version + 1; omega) hov
      (by intro h hh; show (ws.index h).version ≤ ws.version + 1; have := hvers h hh; omega)
    exact ⟨rfl, hnl, c1, c2, c3⟩
  · have hoveq : ws.version = 2 ^ 64 - 1 := by omega
    rw [reset_overflow ws hoveq]
    have hnl : ∀ h, h < ws.ilength →
        ¬ liveIdx (fun _ => (default : IndexSlot)) 1 h := by
      intro h hh hl
      have hx : ((fun _ => (default : IndexSlot)) h).version = 0 := rfl
      have hy : ((fun _ => (default : IndexSlot)) h).version = 1 := hl
      rw [hx] at hy
      exact absurd hy (by omega)
    obtain ⟨c1, c2, c3⟩ := no_live_spec
      { ws with lsize := 0, index := fun _ => default, version := 1 }
      hnl h4 hle h32 (Nat.zero_le _) (by show 0 * 3 < ws.ilength; omega)
      (Nat.le_refl 1) (by show 1 < 2 ^ 64; norm_num)
      (by
        intro h hh
        show ((fun _ => (default : IndexSlot)) h).version ≤ 1
        have hx : ((fun _ => (default : IndexSlot)) h).version = 0 := rfl
        rw [hx]
        omega)
    exact ⟨rfl, hnl, c1, c2, c3⟩

/-! Remove: probe inversion and the exact effect of a removal. -/

theorem probeIdx_found_inv (idx : Nat → IndexSlot) (ver n a : Nat) (hn : 0 < n) :
    ∀ fuel s h, probeIdx idx ver n a fuel s = ProbeResult.found h →
      liveIdx idx ver h ∧ (idx h).address = a ∧ (h = s ∨ h < n) := by
  intro fuel
  induction fuel with
  | zero =>
    intro s h hp
    simp [probeIdx] at hp
  | succ f ih =>
    intro s h hp
    by_cases hv : (idx s).version = ver
    · by_cases ha : (idx s).address = a
      · have hred : probeIdx idx ver n a (f + 1) s = ProbeResult.found s := by
          show (if (idx s).version = ver then
            if (idx s).address = a then ProbeResult.found s
            else probeIdx idx ver n a f ((s + 1) % n)
            else ProbeResult.free s) = ProbeResult.found s
          rw [if_pos hv, if_pos ha]
        rw [hred] at hp
        injection hp with he
        subst he
        exact ⟨hv, ha, Or.inl rfl⟩
      · have hred : probeIdx idx ver n a (f + 1) s = probeIdx idx ver n a f ((s + 1) % n) := by
          show (if (idx s).version = ver then
            if (idx s).address = a then ProbeResult.found s
            else probeIdx idx ver n a f ((s + 1) % n)
            else ProbeResult.free s) = probeIdx idx ver n a f ((s + 1) % n)
          rw [if_pos hv, if_neg ha]
        rw [hred] at hp
        obtain ⟨x1, x2, x3⟩ := ih ((s + 1) % n) h hp
        refine ⟨x1, x2, Or.inr ?_⟩
        rcases x3 with he | hlt
        · rw [he]
          exact Nat.mod_lt _ hn
        · exact hlt
    · have hred : probeIdx idx ver n a (f + 1) s = ProbeResult.free s := by
        show (if (idx s).version = ver then
          if (idx s).address = a then ProbeResult.found s
          else probeIdx idx ver n a f ((s + 1) % n)
          else ProbeResult.free s) = ProbeResult.free s
        rw [if_neg hv]
      rw [hred] at hp
      simp at hp

theorem remove_eq_found_case (ws : WriteSet) (a h : Nat)
    (hpe : ws.probe a = ProbeResult.found h) :
    ws.remove a = { ws with index := updSlot ws.index h ({ ws.index h with version := ((ws.index h).version + (2 ^ 64 - 1)) % 2 ^ 64 }) } := by
  unfold WriteSet.remove
  rw [hpe]

theorem remove_eq_free_case (ws : WriteSet) (a h : Nat)
    (hpe : ws.probe a = ProbeResult.free h) :
    ws.remove a = ws := by
  unfold WriteSet.remove
  rw [hpe]

theorem remove_eq_stuck_case (ws : WriteSet) (a : Nat)
    (hpe : ws.probe a = ProbeResult.stuck) :
    ws.remove a = ws := by
  unfold WriteSet.remove
  rw [hpe]

theorem remove_spec (ws : WriteSet) (a : Nat) (hc : ws.wfCore) :
    (ws.remove a).list = ws.list ∧ (ws.remove a).lsize = ws.lsize ∧
    (ws.remove a).version = ws.version ∧ (ws.remove a).shift = ws.shift ∧
    (ws.remove a).ilength = ws.ilength ∧ (ws.remove a).capacity = ws.capacity ∧
    (¬ ws.bound a → ws.remove a = ws) ∧
    (ws.remove a = ws ∨ ∃ h, h < ws.ilength ∧ ws.live h ∧ (ws.index h).address = a ∧
      (∀ g, g < ws.ilength → ws.live g → (ws.index g).address = a → g = h) ∧
      ws.remove a = { ws with index := updSlot ws.index h ({ ws.index h with version := ((ws.index h).version + (2 ^ 64 - 1)) % 2 ^ 64 }) }) := by
  obtain ⟨h4, hle, h32, hlen, hload, hver1, hver64, hvers, hp, hu⟩ := hc
  have hn : 0 < ws.ilength := by omega
  have hs : hashAt ws.shift a < ws.ilength := hashAt_lt ws.shift a ws.ilength h32 hle
  cases hq : ws.probe a with
  | found h =>
    have hre := remove_eq_found_case ws a h hq
    obtain ⟨hl, ha, hrange⟩ :=
      probeIdx_found_inv ws.index ws.version ws.ilength a hn ws.ilength
        (hashAt ws.shift a) h hq
    have hhn : h < ws.ilength := by
      rcases hrange with he | hlt
      · rw [he]
        exact hs
      · exact hlt
    rw [hre]
    refine ⟨rfl, rfl, rfl, rfl, rfl, rfl, ?_, ?_⟩
    · intro hnb
      exact absurd ⟨h, hhn, hl, ha⟩ hnb
    · right
      exact ⟨h, hhn, hl, ha,
        fun g hg hgl hga => hu g hg h hhn hgl hl (by rw [hga, ha]), rfl⟩
  | free h =>
    have hre := remove_eq_free_case ws a h hq
    rw [hre]
    exact ⟨rfl, rfl, rfl, rfl, rfl, rfl, fun _ => rfl, Or.inl rfl⟩
  | stuck =>
    have hre := remove_eq_stuck_case ws a hq
    rw [hre]
    exact ⟨rfl, rfl, rfl, rfl, rfl, rfl, fun _ => rfl, Or.inl rfl⟩

/-! Writeback and validate over the log prefix. -/

theorem wb_not_mem (l : List WriteSetEntry) (m : Nat → Nat) (x : Nat)
    (hx : x ∉ l.map WriteSetEntry.addr) :
    (l.foldl (fun mm e => e.writeback mm) m) x = m x := by
  induction l generalizing m with
  | nil => rfl
  | cons e l ih =>
    rw [List.foldl_cons]
    rw [List.map_cons] at hx
    have hx0 : x ≠ e.addr := fun he => hx (he ▸ List.mem_cons_self _ _)
    have hx1 : x ∉ l.map WriteSetEntry.addr := fun hm => hx (List.mem_cons_of_mem _ hm)
    rw [ih _ hx1]
    show (if x = e.addr then e.val else m x) = m x
    rw [if_neg hx0]

theorem wb_mem_nodup (l : List WriteSetEntry) (m : Nat → Nat) (e : WriteSetEntry)
    (he : e ∈ l) (hnd : (l.map WriteSetEntry.addr).Nodup) :
    (l.foldl (fun mm x => x.writeback mm) m) e.addr = e.val := by
  induction l generalizing m with
  | nil => cases he
  | cons f l ih =>
    rw [List.foldl_cons]
    rw [List.map_cons] at hnd
    have hnd2 := List.nodup_cons.mp hnd
    rcases List.mem_cons.mp he with rfl | he1
    · rw [wb_not_mem l _ e.addr hnd2.1]
      show (if e.addr = e.addr then e.val else m e.addr) = e.val
      rw [if_pos rfl]
    · exact ih _ he1 hnd2.2

theorem wb_getD_last (l : List WriteSetEntry) :
    ∀ (m : Nat → Nat) (i : Nat), i < l.length →
      (∀ j, j < l.length → i < j → (l.getD j default).addr ≠ (l.getD i default).addr) →
      (l.foldl (fun mm e => e.writeback mm) m) ((l.getD i default).addr) =
        (l.getD i default).val := by
  induction l with
  | nil =>
    intro m i hi _
    exact absurd hi (Nat.not_lt_zero i)
  | cons e l ih =>
    intro m i hi hlater
    rw [List.foldl_cons]
    cases i with
    | zero =>
      have hg0 : (e :: l).getD 0 default = e := rfl
      rw [hg0]
      have hnm : e.addr ∉ l.map WriteSetEntry.addr := by
        intro hmem
        obtain ⟨f, hf, hfa⟩ := List.mem_map.mp hmem
        obtain ⟨j, hj, hfj⟩ := List.mem_iff_getElem.mp hf
        apply hlater (j + 1) (by rw [List.length_cons]; omega) (Nat.succ_pos j)
        have hg1 : (e :: l).getD (j + 1) default = l.getD j default := rfl
        rw [hg1, hg0, List.getD_eq_getElem l default hj, hfj]
        exact hfa
      rw [wb_not_mem l _ e.addr hnm]
      show (if e.addr = e.addr then e.val else m e.addr) = e.val
      rw [if_pos rfl]
    | succ i1 =>
      have hg : (e :: l).getD (i1 + 1) default = l.getD i1 default := rfl
      rw [hg]
      apply ih
      · rw [List.length_cons] at hi
        omega
      · intro j hj hij
        have hg2 : (e :: l).getD (j + 1) default = l.getD j default := rfl
        have := hlater (j + 1) (by rw [List.length_cons]; omega) (by omega)
        rw [hg2, hg] at this
        exact this

theorem validate_iff (t : WriteSet) (m : Nat → Nat) :
    t.validate m = true ↔ ∀ e ∈ t.list.take t.lsize, m e.addr = e.val := by
  unfold WriteSet.validate WriteSetEntry.validate
  rw [List.all_eq_true]
  constructor
  · intro hx e he
    exact beq_iff_eq.mp (hx e he)
  · intro hx e he
    exact beq_iff_eq.mpr (hx e he)

/-! Sequences of inserts after a reset: the write set stays well formed and
its size tracks the set of distinct inserted addresses. -/

theorem insertAll_inv (ops : List (Nat × Nat)) :
    ∀ (s : WriteSet) (S : Finset Nat), s.wf → (∀ b, s.bound b ↔ b ∈ S) →
      s.lsize = S.card →
      (insertAll s ops).wf ∧
      (∀ b, (insertAll s ops).bound b ↔ b ∈ S ∪ (ops.map Prod.fst).toFinset) ∧
      (insertAll s ops).lsize = (S ∪ (ops.map Prod.fst).toFinset).card := by
  induction ops with
  | nil =>
    intro s S h1 h2 h3
    have he : (([] : List (Nat × Nat)).map Prod.fst).toFinset = (∅ : Finset Nat) := rfl
    rw [he]
    refine ⟨h1, ?_, ?_⟩
    · intro b
      rw [Finset.union_empty]
      exact h2 b
    · rw [Finset.union_empty]
      exact h3
  | cons p ops ih =>
    intro s S h1 h2 h3
    have hstep : insertAll s (p :: ops) = insertAll (s.insert p.1 p.2).2 ops := by
      unfold insertAll
      rw [List.foldl_cons]
    rw [hstep]
    by_cases hmem : p.1 ∈ S
    · have hb : s.bound p.1 := (h2 p.1).mpr hmem
      obtain ⟨_, q_ls, _, _, _, _, _, _, q_bound, q_wf⟩ := insert_found_spec s p.1 p.2 h1 hb
      obtain ⟨w1, w2, w3⟩ := ih (s.insert p.1 p.2).2 S q_wf
        (fun b => (q_bound b).trans (h2 b)) (by rw [q_ls, h3])
      have hseteq : S ∪ ((p :: ops).map Prod.fst).toFinset =
          S ∪ (ops.map Prod.fst).toFinset := by
        rw [List.map_cons, List.toFinset_cons, Finset.union_insert,
          Finset.insert_eq_self.mpr (Finset.mem_union_left _ hmem)]
      refine ⟨w1, ?_, ?_⟩
      · intro b
        rw [hseteq]
        exact w2 b
      · rw [hseteq]
        exact w3
    · have hnb : ¬ s.bound p.1 := fun hb => hmem ((h2 p.1).mp hb)
      obtain ⟨h1c, h1chain⟩ := h1
      obtain ⟨_, f_ls, _, _, f_bound, f_core, f_chain, _⟩ :=
        insert_fresh_spec s p.1 p.2 h1c hnb
      have hwf2 : (s.insert p.1 p.2).2.wf := ⟨f_core, f_chain h1chain⟩
      have hbound2 : ∀ b, (s.insert p.1 p.2).2.bound b ↔ b ∈ insert p.1 S := by
        intro b
        rw [f_bound b, Finset.mem_insert, h2 b]
      have hls2 : (s.insert p.1 p.2).2.lsize = (insert p.1 S).card := by
        rw [f_ls, h3, Finset.card_insert_of_not_mem hmem]
      obtain ⟨w1, w2, w3⟩ := ih (s.insert p.1 p.2).2 (insert p.1 S) hwf2 hbound2 hls2
      have hseteq : insert p.1 S ∪ (ops.map Prod.fst).toFinset =
          S ∪ ((p :: ops).map Prod.fst).toFinset := by
        rw [List.map_cons, List.toFinset_cons, Finset.insert_union, Finset.union_insert]
      refine ⟨w1, ?_, ?_⟩
      · intro b
        rw [← hseteq]
        exact w2 b
      · rw [← hseteq]
        exact w3

/-- C1: for every address A and values v1, v2, with the write set well
formed and A holding no live binding, insert(A, v1) returns false and
creates a new binding; the subsequent insert(A, v2) returns true, replaces
the buffered value so find(A) reports v2, and leaves size() unchanged, with
no second log entry stored (the physical log length is unchanged too). -/
theorem insert_coalesces (ws : WriteSet) (A v1 v2 : Nat)
    (hwf : ws.wf) (hA : ¬ ws.bound A) :
    (ws.insert A v1).1 = false ∧
    (ws.insert A v1).2.bound A ∧
    ((ws.insert A v1).2.insert A v2).1 = true ∧
    ((ws.insert A v1).2.insert A v2).2.find A = some v2 ∧
    ((ws.insert A v1).2.insert A v2).2.size = (ws.insert A v1).2.size ∧
    ((ws.insert A v1).2.insert A v2).2.list.length = (ws.insert A v1).2.list.length := by
  obtain ⟨hc, hch⟩ := hwf
  obtain ⟨hret, p_ls, p_take, p_find, p_bound, p_core, p_chain, p_il⟩ :=
    insert_fresh_spec ws A v1 hc hA
  have hb1 : (ws.insert A v1).2.bound A := (p_bound A).mpr (Or.inl rfl)
  have hwf1 : (ws.insert A v1).2.wf := ⟨p_core, p_chain hch⟩
  obtain ⟨hret2, q_ls, q_len, _, _, _, _, q_find, _, _⟩ :=
    insert_found_spec (ws.insert A v1).2 A v2 hwf1 hb1
  exact ⟨hret, hb1, hret2, q_find, q_ls, q_len⟩

/-- Witness for C1: the concrete table of spec section 8 (capacity 4,
index capacity 16), address 5, values 7 then 9. -/
theorem insert_coalesces_witness :
    (ws0.wf ∧ ¬ ws0.bound 5) ∧
    ((ws0.insert 5 7).1 = false ∧
     (ws0.insert 5 7).2.bound 5 ∧
     ((ws0.insert 5 7).2.insert 5 9).1 = true ∧
     ((ws0.insert 5 7).2.insert 5 9).2.find 5 = some 9 ∧
     ((ws0.insert 5 7).2.insert 5 9).2.size = (ws0.insert 5 7).2.size ∧
     ((ws0.insert 5 7).2.insert 5 9).2.list.length = (ws0.insert 5 7).2.list.length) :=
  ⟨⟨by decide, by decide⟩, insert_coalesces ws0 5 7 9 (by decide) (by decide)⟩

/-- C2 counterexample: insert address 1, then remove it.  size() still
reports 1, yet no slot of the table is live, so the number of distinct
addresses with a live binding is 0: size() does not stop counting a
removed address. -/
theorem size_after_remove_cex :
    ((ws0.insert 1 7).2.remove 1).size = 1 ∧
    (∀ h, h < ((ws0.insert 1 7).2.remove 1).ilength →
      ¬ ((ws0.insert 1 7).2.remove 1).live h) ∧
    ¬ ((ws0.insert 1 7).2.remove 1).bound 1 := by
  decide

/-- C2 (amended): at every point in any sequence of insert operations since
the last reset (find is const and does not change the state), size() equals
the number of distinct addresses inserted since the reset; remove() never
changes size() (it does not stop counting a removed address). -/
theorem size_counts_distinct_inserts (ws : WriteSet) (hwf : ws.wf)
    (ops : List (Nat × Nat)) :
    (insertAll ws.reset ops).size = (ops.map Prod.fst).toFinset.card ∧
    (∀ (t : WriteSet) (a : Nat), (t.remove a).size = t.size) := by
  constructor
  · obtain ⟨r0, _, _, rb, rwf⟩ := reset_spec ws hwf.1
    have h2 : ∀ b, (ws.reset).bound b ↔ b ∈ (∅ : Finset Nat) := by
      intro b
      constructor
      · intro hb
        exact absurd hb (rb b)
      · intro hb
        exact absurd hb (Finset.not_mem_empty b)
    have h3 : (ws.reset).lsize = (∅ : Finset Nat).card := by
      rw [r0, Finset.card_empty]
    obtain ⟨_, _, w3⟩ := insertAll_inv ops ws.reset ∅ rwf h2 h3
    rw [Finset.empty_union] at w3
    exact w3
  · intro t a
    cases hq : t.probe a with
    | found h =>
      rw [remove_eq_found_case t a h hq]
      rfl
    | free h => rw [remove_eq_free_case t a h hq]
    | stuck => rw [remove_eq_stuck_case t a hq]

/-- Witness for C2 (amended): three inserts with a repeated address; the
size is the number of distinct addresses, 2. -/
theorem size_counts_distinct_inserts_witness :
    ws0.wf ∧
    ((insertAll ws0.reset [(5, 7), (5, 8), (9, 1)]).size =
      (([(5, 7), (5, 8), (9, 1)].map Prod.fst).toFinset).card ∧
     (∀ (t : WriteSet) (a : Nat), (t.remove a).size = t.size)) :=
  ⟨by decide, size_counts_distinct_inserts ws0 (by decide) [(5, 7), (5, 8), (9, 1)]⟩

/-- C3: with buffered entries at pairwise-distinct addresses, after
writeback() (this configuration has no exclusion region) the memory word at
every buffered address equals its buffered value, and validate() run on the
resulting memory returns true. -/
theorem writeback_validate_roundtrip (ws : WriteSet) (m : Nat → Nat)
    (hnd : ((ws.list.take ws.lsize).map WriteSetEntry.addr).Nodup) :
    (∀ e ∈ ws.list.take ws.lsize, ws.writeback m e.addr = e.val) ∧
    ws.validate (ws.writeback m) = true := by
  have h1 : ∀ e ∈ ws.list.take ws.lsize, ws.writeback m e.addr = e.val := by
    intro e he
    exact wb_mem_nodup (ws.list.take ws.lsize) m e he hnd
  exact ⟨h1, (validate_iff ws (ws.writeback m)).mpr h1⟩

/-- Witness for C3: two buffered writes at distinct addresses over the
all-zero memory. -/
theorem writeback_validate_roundtrip_witness :
    ((({ ws0 with list := [⟨1, 10⟩, ⟨2, 20⟩], lsize := 2 } :
      WriteSet).list.take ({ ws0 with list := [⟨1, 10⟩, ⟨2, 20⟩], lsize := 2 } :
      WriteSet).lsize).map WriteSetEntry.addr).Nodup ∧
    ((∀ e ∈ ({ ws0 with list := [⟨1, 10⟩, ⟨2, 20⟩], lsize := 2 } :
        WriteSet).list.take ({ ws0 with list := [⟨1, 10⟩, ⟨2, 20⟩], lsize := 2 } :
        WriteSet).lsize,
      ({ ws0 with list := [⟨1, 10⟩, ⟨2, 20⟩], lsize := 2 } :
        WriteSet).writeback (fun _ => 0) e.addr = e.val) ∧
     ({ ws0 with list := [⟨1, 10⟩, ⟨2, 20⟩], lsize := 2 } :
        WriteSet).validate (({ ws0 with list := [⟨1, 10⟩, ⟨2, 20⟩], lsize := 2 } :
        WriteSet).writeback (fun _ => 0)) = true) :=
  ⟨by decide, writeback_validate_roundtrip _ (fun _ => 0) (by decide)⟩

/-- C5: from any structurally well-formed state, reset() makes size() zero
and find(A) report not-found for every address, and in the non-overflow
case reset only zeroes the size and advances the version counter -- the
index and log are untouched, so no per-entry work happens. -/
theorem reset_clears (ws : WriteSet) (hc : ws.wfCore) :
    (ws.reset).size = 0 ∧
    (∀ A, (ws.reset).find A = none) ∧
    (ws.version + 1 < 2 ^ 64 →
      ws.reset = { ws with lsize := 0, version := ws.version + 1 }) := by
  obtain ⟨r0, _, r2, _, _⟩ := reset_spec ws hc
  exact ⟨r0, r2, fun h => reset_nonoverflow ws h⟩

/-- Witness for C5: reset of a one-entry table. -/
theorem reset_clears_witness :
    (ws0.insert 5 7).2.wfCore ∧
    (((ws0.insert 5 7).2.reset).size = 0 ∧
     (∀ A, ((ws0.insert 5 7).2.reset).find A = none) ∧
     ((ws0.insert 5 7).2.version + 1 < 2 ^ 64 →
      (ws0.insert 5 7).2.reset = { (ws0.insert 5 7).2 with lsize := 0, version := (ws0.insert 5 7).2.version + 1 })) :=
  ⟨by decide, reset_clears (ws0.insert 5 7).2 (by decide)⟩

/-- C6 counterexample: at key 2 with the spec-section-8 table (shift 28,
index capacity 16), the code's hash is 3 (computed from the low 32 bits of
the product), while the high bits of the full 64-bit product shifted by the
same shift give 19 -- which is not even below the capacity 16 -- and the
top 4 bits of the full product are 0.  The code masks with 0xFFFFFFFF
before shifting, so it does not take the high bits of the full 64-bit
product. -/
theorem hash_high_bits_cex :
    ws0.shift = 28 ∧ ws0.ilength = 16 ∧
    ws0.hash 2 = 3 ∧
    2 * 2654435769 % 2 ^ 64 / 2 ^ 28 = 19 ∧
    2 * 2654435769 % 2 ^ 64 / 2 ^ (32 + 28) = 0 ∧
    (3 : Nat) ≠ 19 ∧ (3 : Nat) ≠ 0 ∧ ¬ (19 : Nat) < 16 := by
  decide

/-- C6 (amended): the hash equals the low 32 bits of the 64-bit product
with the odd constant 2654435769 (the product modulo 2 to the 32) shifted
down by the configured shift, and the result is below 2 to the (32 - shift)
and hence below the index capacity. -/
theorem hash_low_bits (ws : WriteSet) (key : Nat)
    (h32 : ws.shift ≤ 32) (hle : 2 ^ (32 - ws.shift) ≤ ws.ilength) :
    ws.hash key = key * 2654435769 % 2 ^ 32 / 2 ^ ws.shift ∧
    ws.hash key < 2 ^ (32 - ws.shift) ∧
    ws.hash key < ws.ilength := by
  have hmod : key * 2654435769 % 2 ^ 64 % 2 ^ 32 = key * 2654435769 % 2 ^ 32 :=
    Nat.mod_mod_of_dvd _ (pow_dvd_pow 2 (by omega))
  refine ⟨?_, ?_, ?_⟩
  · show hashAt ws.shift key = _
    unfold hashAt
    rw [hmod]
  · exact hashAt_lt ws.shift key (2 ^ (32 - ws.shift)) h32 (Nat.le_refl _)
  · exact hashAt_lt ws.shift key ws.ilength h32 hle

/-- Witness for C6 (amended) at the spec-section-8 table and key 2. -/
theorem hash_low_bits_witness :
    (ws0.shift ≤ 32 ∧ 2 ^ (32 - ws0.shift) ≤ ws0.ilength) ∧
    (ws0.hash 2 = 2 * 2654435769 % 2 ^ 32 / 2 ^ ws0.shift ∧
     ws0.hash 2 < 2 ^ (32 - ws0.shift) ∧
     ws0.hash 2 < ws0.ilength) :=
  ⟨⟨by decide, by decide⟩, hash_low_bits ws0 2 (by decide) (by decide)⟩

/-- C7: after any insert on a well-formed write set the load-factor bound
holds again -- the entry count times 3 is strictly below the index
capacity; the capacity either stayed (no rebuild) or doubled (the rebuild
fired); and consequently a non-live slot exists for later probes. -/
theorem load_factor_after_insert (ws : WriteSet) (a v : Nat) (hwf : ws.wf) :
    (ws.insert a v).2.lsize * 3 < (ws.insert a v).2.ilength ∧
    ((ws.insert a v).2.ilength = ws.ilength ∨
      (ws.insert a v).2.ilength = 2 * ws.ilength) ∧
    ∃ h, h < (ws.insert a v).2.ilength ∧ ¬ (ws.insert a v).2.live h := by
  by_cases hb : ws.bound a
  · obtain ⟨_, _, _, _, _, q_il, _, _, _, q_wf⟩ := insert_found_spec ws a v hwf hb
    obtain ⟨q_core, _⟩ := q_wf
    have hload := q_core.2.2.2.2.1
    exact ⟨hload, Or.inl q_il, exists_free_of_wfCore _ q_core⟩
  · obtain ⟨_, _, _, _, _, f_core, _, f_il⟩ := insert_fresh_spec ws a v hwf.1 hb
    have hload := f_core.2.2.2.2.1
    exact ⟨hload, f_il, exists_free_of_wfCore _ f_core⟩

/-- Witness for C7: inserting one address into the fresh table. -/
theorem load_factor_after_insert_witness :
    ws0.wf ∧
    ((ws0.insert 3 4).2.lsize * 3 < (ws0.insert 3 4).2.ilength ∧
     ((ws0.insert 3 4).2.ilength = ws0.ilength ∨
       (ws0.insert 3 4).2.ilength = 2 * ws0.ilength) ∧
     ∃ h, h < (ws0.insert 3 4).2.ilength ∧ ¬ (ws0.insert 3 4).2.live h) :=
  ⟨by decide, load_factor_after_insert ws0 3 4 (by decide)⟩

/-- C8: reset advances the 64-bit version counter with wraparound; the
wrap to zero happens exactly when the counter was at its maximum, and
exactly then the physical clear runs (zeroing the table and restoring the
version baseline 1); in every other case reset only zeroes the size and
bumps the counter, touching nothing per-entry.  Both outcomes are ordinary
returns of the same total function -- no error is surfaced. -/
theorem reset_overflow_behavior (ws : WriteSet) (hv : ws.version < 2 ^ 64) :
    ((ws.version + 1) % 2 ^ 64 = 0 ↔ ws.version = 2 ^ 64 - 1) ∧
    (ws.version + 1 < 2 ^ 64 →
      ws.reset = { ws with lsize := 0, version := ws.version + 1 }) ∧
    (ws.version = 2 ^ 64 - 1 →
      ws.reset = { ws with lsize := 0, index := fun _ => default, version := 1 }) := by
  refine ⟨⟨?_, ?_⟩, reset_nonoverflow ws, reset_overflow ws⟩
  · intro h
    omega
  · intro h
    rw [h]
    omega

/-- Witness for C8 at the fresh table (version 1). -/
theorem reset_overflow_behavior_witness :
    ws0.version < 2 ^ 64 ∧
    (((ws0.version + 1) % 2 ^ 64 = 0 ↔ ws0.version = 2 ^ 64 - 1) ∧
     (ws0.version + 1 < 2 ^ 64 →
       ws0.reset = { ws0 with lsize := 0, version := ws0.version + 1 }) ∧
     (ws0.version = 2 ^ 64 - 1 →
       ws0.reset = { ws0 with lsize := 0, index := fun _ => default, version := 1 })) :=
  ⟨by decide, reset_overflow_behavior ws0 (by decide)⟩

/-- C10: remove(A) never modifies the log, the entry count, or the current
version (nor the shift, capacity or index length); it either leaves the
state entirely unchanged -- in particular whenever A has no live binding --
or decrements the version tag of the single live slot holding A. -/
theorem remove_frame (ws : WriteSet) (a : Nat) (hc : ws.wfCore) :
    (ws.remove a).list = ws.list ∧ (ws.remove a).lsize = ws.lsize ∧
    (ws.remove a).version = ws.version ∧ (ws.remove a).shift = ws.shift ∧
    (ws.remove a).ilength = ws.ilength ∧ (ws.remove a).capacity = ws.capacity ∧
    (¬ ws.bound a → ws.remove a = ws) ∧
    (ws.remove a = ws ∨ ∃ h, h < ws.ilength ∧ ws.live h ∧ (ws.index h).address = a ∧
      (∀ g, g < ws.ilength → ws.live g → (ws.index g).address = a → g = h) ∧
      ws.remove a = { ws with index := updSlot ws.index h ({ ws.index h with version := (ws.index h).version - 1 }) }) := by
  obtain ⟨f1, f2, f3, f4, f5, f6, f7, f8⟩ := remove_spec ws a hc
  refine ⟨f1, f2, f3, f4, f5, f6, f7, ?_⟩
  rcases f8 with he | ⟨h, hh, hl, ha, huniq, heq⟩
  · exact Or.inl he
  · right
    refine ⟨h, hh, hl, ha, huniq, ?_⟩
    rw [heq]
    have hver : (ws.index h).version = ws.version := hl
    have hv1 : 1 ≤ ws.version := hc.2.2.2.2.2.1
    have hv64 : ws.version < 2 ^ 64 := hc.2.2.2.2.2.2.1
    have hdec : ((ws.index h).version + (2 ^ 64 - 1)) % 2 ^ 64 =
        (ws.index h).version - 1 := by
      rw [hver]
      omega
    rw [hdec]

/-- Witness for C10: removing the one bound address of a one-entry table. -/
theorem remove_frame_witness :
    (ws0.insert 5 7).2.wfCore ∧
    (((ws0.insert 5 7).2.remove 5).list = (ws0.insert 5 7).2.list ∧
     ((ws0.insert 5 7).2.remove 5).lsize = (ws0.insert 5 7).2.lsize ∧
     ((ws0.insert 5 7).2.remove 5).version = (ws0.insert 5 7).2.version ∧
     ((ws0.insert 5 7).2.remove 5).shift = (ws0.insert 5 7).2.shift ∧
     ((ws0.insert 5 7).2.remove 5).ilength = (ws0.insert 5 7).2.ilength ∧
     ((ws0.insert 5 7).2.remove 5).capacity = (ws0.insert 5 7).2.capacity ∧
     (¬ (ws0.insert 5 7).2.bound 5 → (ws0.insert 5 7).2.remove 5 = (ws0.insert 5 7).2) ∧
     ((ws0.insert 5 7).2.remove 5 = (ws0.insert 5 7).2 ∨
      ∃ h, h < (ws0.insert 5 7).2.ilength ∧ (ws0.insert 5 7).2.live h ∧
        ((ws0.insert 5 7).2.index h).address = 5 ∧
        (∀ g, g < (ws0.insert 5 7).2.ilength → (ws0.insert 5 7).2.live g →
          ((ws0.insert 5 7).2.index g).address = 5 → g = h) ∧
        (ws0.insert 5 7).2.remove 5 = { (ws0.insert 5 7).2 with index := updSlot (ws0.insert 5 7).2.index h ({ (ws0.insert 5 7).2.index h with version := ((ws0.insert 5 7).2.index h).version - 1 }) })) :=
  ⟨by decide, remove_frame (ws0.insert 5 7).2 5 (by decide)⟩

/-- C4 counterexample: insert address 1 with value 5, then remove(1),
leaving the table with no live slot at all.  writeback() over the all-zero
memory still stores 5 at address 1 even though the entry's binding was
invalidated, and validate() still checks the entry (reporting false against
the all-zero memory instead of ignoring the dead entry).  Neither operation
restricts itself to live entries. -/
theorem writeback_ignores_liveness_cex :
    ¬ ((ws0.insert 1 5).2.remove 1).bound 1 ∧
    (∀ h, h < ((ws0.insert 1 5).2.remove 1).ilength →
      ¬ ((ws0.insert 1 5).2.remove 1).live h) ∧
    ((ws0.insert 1 5).2.remove 1).writeback (fun _ => 0) 1 = 5 ∧
    ((ws0.insert 1 5).2.remove 1).validate (fun _ => 0) = false := by
  decide

/-- C4 (amended): writeback() writes every entry of the log prefix in
insertion order regardless of index liveness -- the value of entry i lands
in memory whenever no later entry reuses its address -- and validate()
checks every entry of the log prefix regardless of liveness: it returns
true exactly when memory matches all buffered values, dead entries
included. -/
theorem writeback_validate_every_entry (ws : WriteSet) (m : Nat → Nat) :
    (∀ i, i < ws.lsize → i < ws.list.length →
      (∀ j, j < ws.lsize → i < j → (ws.list.getD j default).addr ≠ (ws.list.getD i default).addr) →
      ws.writeback m ((ws.list.getD i default).addr) = (ws.list.getD i default).val) ∧
    (ws.validate m = true ↔ ∀ e ∈ ws.list.take ws.lsize, m e.addr = e.val) := by
  constructor
  · intro i hi hil hlater
    have hlen : i < (ws.list.take ws.lsize).length := by
      rw [List.length_take]
      omega
    have hgt : ∀ k, k < (ws.list.take ws.lsize).length →
        (ws.list.take ws.lsize).getD k default = ws.list.getD k default := by
      intro k hk
      rw [List.length_take] at hk
      rw [List.getD_eq_getD_get?, List.get?_eq_getElem?,
        List.getElem?_take_of_lt (by omega), ← List.get?_eq_getElem?,
        ← List.getD_eq_getD_get?]
    have hlater2 : ∀ j, j < (ws.list.take ws.lsize).length → i < j →
        ((ws.list.take ws.lsize).getD j default).addr ≠
          ((ws.list.take ws.lsize).getD i default).addr := by
      intro j hj hij
      rw [hgt j hj, hgt i hlen]
      have hjl : j < ws.lsize := by
        rw [List.length_take] at hj
        omega
      exact hlater j hjl hij
    have hmain := wb_getD_last (ws.list.take ws.lsize) m i hlen hlater2
    rw [hgt i hlen] at hmain
    exact hmain
  · exact validate_iff ws m

/-- Witness for C4 (amended): the removed -- dead -- entry of the
counterexample state is nevertheless written back. -/
theorem writeback_validate_every_entry_witness :
    (0 < ((ws0.insert 1 5).2.remove 1).lsize ∧
     0 < ((ws0.insert 1 5).2.remove 1).list.length) ∧
    ((ws0.insert 1 5).2.remove 1).writeback (fun _ => 0)
        ((((ws0.insert 1 5).2.remove 1).list.getD 0 default).addr) =
      (((ws0.insert 1 5).2.remove 1).list.getD 0 default).val :=
  ⟨⟨by decide, by decide⟩,
    (writeback_validate_every_entry ((ws0.insert 1 5).2.remove 1) (fun _ => 0)).1 0
      (by decide) (by decide) (by decide)⟩

/-- C9: for an address A with a live binding, remove(A) then insert(A, v)
claims the freed slot as if A were new: insert returns false, appends a
second log entry for A instead of reusing the old one (the old entry stays
in the log, so the filtered log for A gains the new pair at the end, and
with a single prior entry it reads old-then-new in insertion order), find
reports v, size() ends one above its value before the remove, and a later
writeback writes A both times, the new value landing last. -/
theorem remove_then_insert_duplicates (ws : WriteSet) (A v : Nat)
    (hwf : ws.wf) (hb : ws.bound A) :
    ((ws.remove A).insert A v).1 = false ∧
    ((ws.remove A).insert A v).2.find A = some v ∧
    ((ws.remove A).insert A v).2.size = ws.size + 1 ∧
    ((ws.remove A).insert A v).2.list.take ((ws.remove A).insert A v).2.lsize =
      ws.list.take ws.lsize ++ [⟨A, v⟩] ∧
    (∀ m, ((ws.remove A).insert A v).2.writeback m A = v) ∧
    (∃ w, ws.find A = some w ∧
      (((ws.list.take ws.lsize).filter fun e => e.addr == A).length = 1 →
        (((ws.remove A).insert A v).2.list.take
          ((ws.remove A).insert A v).2.lsize).filter (fun e => e.addr == A) =
          [⟨A, w⟩, ⟨A, v⟩])) := by
  obtain ⟨⟨h4, hle, h32, hlen, hload, hver1, hver64, hvers, hp, hu⟩, hch⟩ := hwf
  obtain ⟨g, hg, hgl, hga⟩ := hb
  have hpe : ws.probe A = ProbeResult.found g :=
    probe_eq_of_slot ws A g hu hch h32 hle hg hgl hga
  have hre := remove_eq_found_case ws A g hpe
  rw [hre]
  set R : WriteSet := { ws with index := updSlot ws.index g ({ ws.index g with version := ((ws.index g).version + (2 ^ 64 - 1)) % 2 ^ 64 }) } with hR
  have rv : (ws.index g).version = ws.version := hgl
  have hdecne : ((ws.index g).version + (2 ^ 64 - 1)) % 2 ^ 64 ≠ ws.version := by
    rw [rv]
    omega
  have hRother : ∀ h, h ≠ g → R.index h = ws.index h := by
    intro h hh
    exact updSlot_ne _ _ _ _ hh
  have hgdead : ¬ liveIdx R.index R.version g := by
    show ¬ ((updSlot ws.index g _) g).version = ws.version
    rw [updSlot_self]
    exact hdecne
  have hlive_sub : ∀ h, liveIdx R.index R.version h →
      h ≠ g ∧ liveIdx ws.index ws.version h := by
    intro h hl
    by_cases he : h = g
    · rw [he] at hl
      exact absurd hl hgdead
    · refine ⟨he, ?_⟩
      have hx : R.index h = ws.index h := hRother h he
      unfold liveIdx at hl ⊢
      rw [hx] at hl
      exact hl
  have hcoreR : R.wfCore := by
    refine ⟨h4, hle, h32, hlen, hload, hver1, hver64, ?_, ?_, ?_⟩
    · intro h hh
      by_cases he : h = g
      · rw [he]
        show ((updSlot ws.index g _) g).version ≤ ws.version
        rw [updSlot_self]
        show ((ws.index g).version + (2 ^ 64 - 1)) % 2 ^ 64 ≤ ws.version
        rw [rv]
        omega
      · show (R.index h).version ≤ ws.version
        rw [hRother h he]
        exact hvers h hh
    · intro h hh hl
      obtain ⟨hne, hlo⟩ := hlive_sub h hl
      show (R.index h).index < ws.lsize ∧
        (ws.list.getD (R.index h).index default).addr = (R.index h).address
      rw [hRother h hne]
      exact hp h hh hlo
    · intro h1 hh1 h2 hh2 hl1 hl2 heq
      obtain ⟨hne1, hlo1⟩ := hlive_sub h1 hl1
      obtain ⟨hne2, hlo2⟩ := hlive_sub h2 hl2
      rw [hRother h1 hne1, hRother h2 hne2] at heq
      exact hu h1 hh1 h2 hh2 hlo1 hlo2 heq
  have hnbR : ¬ R.bound A := by
    rintro ⟨h, hh, hl, ha⟩
    obtain ⟨hne, hlo⟩ := hlive_sub h hl
    rw [hRother h hne] at ha
    exact hne (hu h hh g hg hlo hgl (by rw [ha, hga]))
  obtain ⟨hret, p_ls, p_take, p_find, p_bound, p_core, p_chain, p_il⟩ :=
    insert_fresh_spec R A v hcoreR hnbR
  have hip := hp g hg hgl
  have hilen : (ws.index g).index < ws.list.length := by omega
  have hiaddr : (ws.list.getD (ws.index g).index default).addr = A := by
    rw [hip.2, hga]
  refine ⟨hret, p_find, p_ls, p_take, ?_, ?_⟩
  · intro m
    show ((R.insert A v).2.list.take (R.insert A v).2.lsize).foldl
      (fun mm e => e.writeback mm) m A = v
    rw [p_take]
    rw [List.foldl_append, List.foldl_cons, List.foldl_nil]
    show (if A = A then v else _) = v
    rw [if_pos rfl]
  · refine ⟨(ws.list.getD (ws.index g).index default).val, ?_, ?_⟩
    · exact find_eq_of_slot ws A g hu hch h32 hle hg hgl hga
    · intro hcount
      have hgetTake : (ws.list.take ws.lsize).get? (ws.index g).index =
          some (ws.list.getD (ws.index g).index default) := by
        rw [List.get?_eq_getElem?, List.getElem?_take_of_lt hip.1,
          List.getElem?_eq_getElem hilen, List.getD_eq_getElem _ _ hilen]
      have hmemE : ws.list.getD (ws.index g).index default ∈ ws.list.take ws.lsize :=
        List.get?_mem hgetTake
      have hmemF : ws.list.getD (ws.index g).index default ∈
          (ws.list.take ws.lsize).filter (fun e => e.addr == A) := by
        refine List.mem_filter.mpr ⟨hmemE, ?_⟩
        rw [hiaddr]
        exact beq_self_eq_true A
      obtain ⟨x, hx⟩ := List.length_eq_one.mp hcount
      have hxE : x = ws.list.getD (ws.index g).index default := by
        rw [hx] at hmemF
        exact (List.mem_singleton.mp hmemF).symm
      have hfiltold : (ws.list.take ws.lsize).filter (fun e => e.addr == A) =
          [ws.list.getD (ws.index g).index default] := by
        rw [hx, hxE]
      have hEeq : (⟨A, (ws.list.getD (ws.index g).index default).val⟩ : WriteSetEntry) =
          ws.list.getD (ws.index g).index default := by
        rw [← hiaddr]
      have hfiltnew : List.filter (fun e => e.addr == A) [(⟨A, v⟩ : WriteSetEntry)] =
          [(⟨A, v⟩ : WriteSetEntry)] := by
        simp
      rw [p_take, List.filter_append, hfiltold, hfiltnew, hEeq]
      rfl

/-- Witness for C9: insert 5, remove it, insert it again with a new value;
the log holds both entries in insertion order. -/
theorem remove_then_insert_duplicates_witness :
    ((ws0.insert 5 7).2.wf ∧ (ws0.insert 5 7).2.bound 5) ∧
    ((((ws0.insert 5 7).2.remove 5).insert 5 9).1 = false ∧
     (((ws0.insert 5 7).2.remove 5).insert 5 9).2.find 5 = some 9 ∧
     (((ws0.insert 5 7).2.remove 5).insert 5 9).2.size = (ws0.insert 5 7).2.size + 1 ∧
     (((ws0.insert 5 7).2.remove 5).insert 5 9).2.list.take
         (((ws0.insert 5 7).2.remove 5).insert 5 9).2.lsize =
       (ws0.insert 5 7).2.list.take (ws0.insert 5 7).2.lsize ++ [⟨5, 9⟩] ∧
     (∀ m, (((ws0.insert 5 7).2.remove 5).insert 5 9).2.writeback m 5 = 9) ∧
     (∃ w, (ws0.insert 5 7).2.find 5 = some w ∧
       ((((ws0.insert 5 7).2.list.take (ws0.insert 5 7).2.lsize).filter
           fun e => e.addr == 5).length = 1 →
         ((((ws0.insert 5 7).2.remove 5).insert 5 9).2.list.take
           (((ws0.insert 5 7).2.remove 5).insert 5 9).2.lsize).filter
             (fun e => e.addr == 5) = [⟨5, w⟩, ⟨5, 9⟩]))) :=
  ⟨⟨by decide, by decide⟩,
    remove_then_insert_duplicates (ws0.insert 5 7).2 5 9 (by decide) (by decide)⟩
